/-
Verification of the OHLCV sanitization core of go-plugin-common.

The development shallowly embeds the Go sources:

* `trading/timeframe.go` — `Timeframe`, `ToMinutes`, `LastOpen`, `NextOpen`,
  `CloseTime`, `TimeframeFromString`;
* `utils` OHLCV sanitizer — `OHLCVSanitizer`, `NewOHLCVSanitizer`,
  `SanitizeBatch`, `Reset`, `SetTimeframe`, `GetLastCandle`, `ValidateBatch`;
* `utils/time.go` — `StartOfMinute` … `StartOfYear`.

Conventions of the embedding:

* Go `int64`/`int` values are Lean `Int`; where Go's wrap-around overflow can
  change a result that matters here (the `uint64 → int` cast and the period
  multiplication in `ToMinutes`) it is modelled explicitly via `wrap64`.
  Candle-timestamp additions are kept as exact `Int` arithmetic: they wrap in
  Go only for timestamps of magnitude ≥ 2^63 seconds, far outside any real
  candle series.
* A Go runtime panic (integer modulus by zero, nil-pointer dereference) and
  non-termination of a loop are both modelled as `none` of an `Option` result.
* `sort.Slice` (Go standard library, not part of this repository) is modelled
  by its documented contract: the slice is permuted in place into an order
  that is nondecreasing under the comparator, with NO stability guarantee.
  `sortSliceAdmissible` is that contract; sanitizer functions take the sorted
  list as an argument and theorems quantify over every admissible outcome.
* `time.Time` and `*time.Location` (Go standard library) are modelled as an
  absolute nanosecond instant displayed in a fixed-offset zone, with the
  proleptic Gregorian civil-calendar conversion; IANA zone loading is an
  abstract parameter.
-/
import Mathlib

/-- Two's-complement wrap of an unbounded integer into the `int64` range,
modelling Go's wrap-around arithmetic on 64-bit integers. -/
def wrap64 (x : Int) : Int := (x + 2 ^ 63) % 2 ^ 64 - 2 ^ 63

/-- The Go conversion `int(v)` applied to a `uint64` value `v < 2^64`:
reinterpretation of the bits, i.e. a two's-complement wrap. -/
def int64OfUInt64 (v : Nat) : Int := wrap64 (Int.ofNat v)

namespace gotime

/-- Model of Go `*time.Location`: a fixed offset from UTC in seconds.
A real `*time.Location` can carry DST transition tables; claims settled here
do not depend on them, and all concrete inputs use UTC (offset 0). -/
structure Location where
  offsetSeconds : Int
deriving DecidableEq, Repr

/-- `time.UTC`. -/
def UTC : Location := ⟨0⟩

/-- Model of Go `time.Time`: an absolute instant as (unbounded) nanoseconds
since the Unix epoch, plus the location used to display civil fields. -/
structure Time where
  nanos : Int
  loc : Location
deriving DecidableEq, Repr

/-- Go `Time.Equal`: instant equality, ignoring the display location. -/
def Time.EqualTime (t u : Time) : Bool := t.nanos == u.nanos

/-- Go `Time.In`: same instant, displayed in the given location. -/
def Time.InLoc (t : Time) (loc : Location) : Time := ⟨t.nanos, loc⟩

/-- Go `Time.Add`: advance the instant by a number of nanoseconds. -/
def Time.AddNanos (t : Time) (d : Int) : Time := ⟨t.nanos + d, t.loc⟩

/-- Civil date (year, month, day) from a count of days since 1970-01-01, in
the proleptic Gregorian calendar (the arithmetic Go's `time` package
implements internally). -/
def civilFromDays (z0 : Int) : Int × Int × Int :=
  let z := z0 + 719468
  let era := Int.fdiv z 146097
  let doe := z - era * 146097
  let yoe := Int.fdiv (doe - Int.fdiv doe 1460 + Int.fdiv doe 36524 - Int.fdiv doe 146096) 365
  let y := yoe + era * 400
  let doy := doe - (365 * yoe + Int.fdiv yoe 4 - Int.fdiv yoe 100)
  let mp := Int.fdiv (5 * doy + 2) 153
  let d := doy - Int.fdiv (153 * mp + 2) 5 + 1
  let m := mp + (if mp < 10 then 3 else -9)
  (y + (if m ≤ 2 then 1 else 0), m, d)

/-- Days since 1970-01-01 of a civil date (year, month ∈ [1,12], day),
proleptic Gregorian. -/
def daysFromCivil (y0 m d : Int) : Int :=
  let y := y0 - (if m ≤ 2 then 1 else 0)
  let era := Int.fdiv y 400
  let yoe := y - era * 400
  let mp := (m + 9) % 12
  let doy := Int.fdiv (153 * mp + 2) 5 + d - 1
  let doe := yoe * 365 + Int.fdiv yoe 4 - Int.fdiv yoe 100 + doy
  era * 146097 + doe - 719468

/-- Seconds since the epoch of the instant, shifted into the display zone:
the civil fields below are read from this value. -/
def Time.localSeconds (t : Time) : Int :=
  Int.fdiv t.nanos 1000000000 + t.loc.offsetSeconds

/-- Days since the epoch in the display zone. -/
def Time.localDays (t : Time) : Int := Int.fdiv t.localSeconds 86400

/-- Go `Time.Year`. -/
def Time.Year (t : Time) : Int := (civilFromDays t.localDays).1

/-- Go `Time.Month` (1 = January … 12 = December). -/
def Time.Month (t : Time) : Int := (civilFromDays t.localDays).2.1

/-- Go `Time.Day`. -/
def Time.Day (t : Time) : Int := (civilFromDays t.localDays).2.2

/-- Go `Time.Hour`. -/
def Time.Hour (t : Time) : Int := Int.fdiv (t.localSeconds % 86400) 3600

/-- Go `Time.Minute`. -/
def Time.Minute (t : Time) : Int := Int.fdiv (t.localSeconds % 86400 % 3600) 60

/-- Go `Time.Second`. -/
def Time.Second (t : Time) : Int := t.localSeconds % 86400 % 60

/-- Go `Time.Nanosecond`. -/
def Time.Nanosecond (t : Time) : Int := t.nanos % 1000000000

/-- Go `Time.Weekday` (0 = Sunday … 6 = Saturday); 1970-01-01 was a
Thursday (= 4). -/
def Time.Weekday (t : Time) : Int := (t.localDays + 4) % 7

/-- Go `time.Date(year, month, day, hour, min, sec, nsec, loc)`: builds the
instant from civil fields in `loc`, normalizing out-of-range fields exactly
as Go does (month is folded into the year; day, hour, minute, second and
nanosecond overflow simply carry). -/
def Date (year month day hour minute sec nsec : Int) (loc : Location) : Time :=
  let m0 := month - 1
  let y := year + Int.fdiv m0 12
  let m := m0 % 12 + 1
  let days := daysFromCivil y m 1 + (day - 1)
  let localSec := days * 86400 + hour * 3600 + minute * 60 + sec
  ⟨(localSec - loc.offsetSeconds) * 1000000000 + nsec, loc⟩

/-- Go `Time.AddDate(years, months, days)`: civil-field addition with `Date`
normalization, keeping the clock fields. -/
def Time.AddDate (t : Time) (years months days : Int) : Time :=
  Date (t.Year + years) (t.Month + months) (t.Day + days)
    t.Hour t.Minute t.Second t.Nanosecond t.loc

end gotime

namespace utils

open gotime

/-- `utils.StartOfMinute` (src/utils/time.go). -/
def StartOfMinute (t : Time) : Time :=
  Date t.Year t.Month t.Day t.Hour t.Minute 0 0 t.loc

/-- `utils.StartOfHour` (src/utils/time.go). -/
def StartOfHour (t : Time) : Time :=
  Date t.Year t.Month t.Day t.Hour 0 0 0 t.loc

/-- `utils.StartOfDay` (src/utils/time.go). -/
def StartOfDay (t : Time) : Time :=
  Date t.Year t.Month t.Day 0 0 0 0 t.loc

/-- `utils.StartOfWeek` (src/utils/time.go): start of the current day moved
back to the most recent Monday. -/
def StartOfWeek (t : Time) : Time :=
  let daysToSubtract := if t.Weekday = 0 then 6 else t.Weekday - 1
  (StartOfDay t).AddDate 0 0 (-daysToSubtract)

/-- `utils.StartOfMonth` (src/utils/time.go). -/
def StartOfMonth (t : Time) : Time :=
  Date t.Year t.Month 1 0 0 0 0 t.loc

/-- `utils.StartOfYear` (src/utils/time.go). -/
def StartOfYear (t : Time) : Time :=
  Date t.Year 1 1 0 0 0 0 t.loc

end utils

namespace trading

open gotime

/-- Go `trading.Unit` is `type Unit string`. -/
abbrev Unit := String

/-- `trading.Hours`. -/
def Hours : Unit := "h"

/-- `trading.Minutes`. -/
def Minutes : Unit := "m"

/-- `trading.Days`. -/
def Days : Unit := "D"

/-- `trading.Weeks`. -/
def Weeks : Unit := "W"

/-- `trading.Months`. -/
def Months : Unit := "M"

/-- `trading.Years`. -/
def Years : Unit := "Y"

/-- `Unit.IsValid` (trading/timeframe.go): true instead of the nil error. -/
def UnitIsValid (u : Unit) : Bool :=
  u == Hours || u == Minutes || u == Days || u == Weeks || u == Months || u == Years

/-- `trading.Timeframe`. `Value` is a Go `uint64`, carried as a `Nat`;
`Location` is a Go pointer and may be nil (`none`). -/
structure Timeframe where
  ID : Nat
  UserID : Nat
  Value : Nat
  Unit : Unit
  Location : Option gotime.Location
deriving DecidableEq, Repr

/-- `Timeframe.ToMinutes` without a reference time (the only form reached by
`SanitizeBatch`, `NextOpen` and `CloseTime`): a fixed multiplier per unit —
approximate 30-day months and 365-day years — times `int(tf.Value)`, with
Go's wrap-around `int` arithmetic. -/
def ToMinutes (tf : Timeframe) : Int :=
  let mul : Int :=
    if tf.Unit = Hours then 60
    else if tf.Unit = Days then 60 * 24
    else if tf.Unit = Weeks then 60 * 24 * 7
    else if tf.Unit = Months then 60 * 24 * 30
    else if tf.Unit = Years then 60 * 24 * 365
    else 1
  wrap64 (mul * int64OfUInt64 tf.Value)

/-- `Timeframe.InLocation`: convert a time to the timeframe's zone, UTC when
the location pointer is nil. -/
def InLocation (tf : Timeframe) (tm : Time) : Time :=
  match tf.Location with
  | none => tm.InLoc UTC
  | some loc => tm.InLoc loc

/-- `trading.OHLCVRecord` (trading/ohlcv.go): one candle; price and volume
fields are decimal strings. -/
structure OHLCVRecord where
  OpenTime : Int
  Open : String
  High : String
  Low : String
  Close : String
  Volume : String
deriving DecidableEq, Repr

end trading

namespace utils

open trading

/-- `utils.OHLCVSanitizer` (field order as in the Go struct). -/
structure OHLCVSanitizer where
  timeframe : Timeframe
  lastCandle : Option OHLCVRecord
  firstCandle : Option OHLCVRecord
  initialized : Bool
deriving DecidableEq, Repr

/-- `utils.NewOHLCVSanitizer`: nil candle pointers, not initialized. -/
def NewOHLCVSanitizer (timeframe : Timeframe) : OHLCVSanitizer :=
  ⟨timeframe, none, none, false⟩

/-- The contract of `sort.Slice(batch, less)` with `less` comparing
`OpenTime` by `<`: the slice is permuted into nondecreasing `OpenTime`
order. `sort.Slice` is documented as not stable, so every permutation
satisfying this contract is an admissible outcome. -/
def sortSliceAdmissible (batch sorted : List OHLCVRecord) : Prop :=
  sorted.Perm batch ∧ sorted.Pairwise (fun a b => a.OpenTime ≤ b.OpenTime)

/-- Internal-duplicate test of the `SanitizeBatch` loop:
`i > 0 && candle.OpenTime == batch[i-1].OpenTime`; `prevOt` carries
`batch[i-1].OpenTime` when `i > 0`. -/
def isInternalDup (prevOt : Option Int) (c : OHLCVRecord) : Bool :=
  match prevOt with
  | none => false
  | some p => c.OpenTime == p

/-- External-duplicate test of the `SanitizeBatch` loop: the sanitizer is
initialized, both boundary candles are non-nil, and the candle's `OpenTime`
falls inside `[firstCandle.OpenTime, lastCandle.OpenTime]`. -/
def isExternalDup (s : OHLCVSanitizer) (c : OHLCVRecord) : Bool :=
  s.initialized &&
    (match s.firstCandle, s.lastCandle with
     | some f, some l =>
       decide (f.OpenTime ≤ c.OpenTime) && decide (c.OpenTime ≤ l.OpenTime)
     | _, _ => false)

/-- One synthesized filler candle: all four prices are the prior close and
the volume is the literal `"0.00000000"`. -/
def mkGapCandle (ts : Int) (cl : String) : OHLCVRecord :=
  ⟨ts, cl, cl, cl, cl, "0.00000000"⟩

/-- Fuel-indexed unfolding of the gap loop
`for nextTs < candle.OpenTime { append filler; nextTs += dur }`.
Exhausted fuel while another iteration is due yields `none`. -/
def gapIter (dur : Int) (cl : String) (target : Int) :
    Nat → Int → Option (List OHLCVRecord)
  | 0, ts => if ts < target then none else some []
  | n + 1, ts =>
    if ts < target then
      (gapIter dur cl target n (ts + dur)).map (fun g => mkGapCandle ts cl :: g)
    else some []

/-- The gap loop itself. For `dur > 0` the fuel `(target - start).toNat` is
sufficient, since every iteration advances `nextTs` by at least 1; for
`dur ≤ 0` any due iteration recurs forever in Go, so the fuel is 0 and the
`none` of `gapIter` marks the divergence. -/
def gapFill (dur : Int) (cl : String) (target start : Int) :
    Option (List OHLCVRecord) :=
  gapIter dur cl target (if 0 < dur then (target - start).toNat else 0) start

/-- The per-candle walk of `SanitizeBatch`: skip internal duplicates, skip
candles in the already-seen range, synthesize fillers before the first
retained candle when it lies strictly ahead of `lastCandle`, append the
candle. `result` is the accumulator, `prevOt` the previous sorted-batch
timestamp. -/
def sanitizeLoop (dur : Int) (s : OHLCVSanitizer) :
    List OHLCVRecord → Option Int → List OHLCVRecord → Option (List OHLCVRecord)
  | [], _, result => some result
  | c :: rest, prevOt, result =>
    if isInternalDup prevOt c then sanitizeLoop dur s rest (some c.OpenTime) result
    else if isExternalDup s c then sanitizeLoop dur s rest (some c.OpenTime) result
    else
      let filled : Option (List OHLCVRecord) :=
        if result.isEmpty && s.initialized && s.lastCandle.isSome then
          match s.lastCandle with
          | some l =>
            if l.OpenTime < c.OpenTime then
              (gapFill dur l.Close c.OpenTime (l.OpenTime + dur)).map
                (fun g => result ++ g)
            else some result
          | none => some result
        else some result
      filled.bind
        (fun result2 => sanitizeLoop dur s rest (some c.OpenTime) (result2 ++ [c]))

/-- `OHLCVSanitizer.SanitizeBatch`, taking the batch as it stands after the
in-place `sort.Slice` (see `sortSliceAdmissible`). `none` models a call that
panics (nil `firstCandle`/`lastCandle` dereference while initialized) or
never returns (gap loop with non-positive period). The boundary update
mirrors the Go source: `firstCandle` moves to `result[0]` when absent or
later than it, `lastCandle` to the last result record when absent or earlier
than it, both tested against the pre-call `initialized` flag. -/
def SanitizeBatch (s : OHLCVSanitizer) (sorted : List OHLCVRecord) :
    Option (List OHLCVRecord × OHLCVSanitizer) :=
  match sorted with
  | [] => some ([], s)
  | c0 :: cs =>
    let dur := wrap64 (ToMinutes s.timeframe * 60)
    match sanitizeLoop dur s (c0 :: cs) none [] with
    | none => none
    | some [] => some ([], s)
    | some (r0 :: rs) =>
      let resLast := (r0 :: rs).getLast (List.cons_ne_nil r0 rs)
      let step1 : Option OHLCVSanitizer :=
        if s.initialized = false then some { s with firstCandle := some r0 }
        else
          match s.firstCandle with
          | none => none
          | some f =>
            if r0.OpenTime < f.OpenTime then some { s with firstCandle := some r0 }
            else some s
      match step1 with
      | none => none
      | some s1 =>
        let step2 : Option OHLCVSanitizer :=
          if s.initialized = false then some { s1 with lastCandle := some resLast }
          else
            match s.lastCandle with
            | none => none
            | some l =>
              if l.OpenTime < resLast.OpenTime then
                some { s1 with lastCandle := some resLast }
              else some s1
        match step2 with
        | none => none
        | some s2 => some (r0 :: rs, { s2 with initialized := true })

/-- `OHLCVSanitizer.Reset`. -/
def Reset (s : OHLCVSanitizer) : OHLCVSanitizer :=
  { s with firstCandle := none, lastCandle := none, initialized := false }

/-- `OHLCVSanitizer.GetLastCandle` (the returned record is a copy; in the
value semantics of the model that is the stored value itself). -/
def GetLastCandle (s : OHLCVSanitizer) : Option OHLCVRecord := s.lastCandle

/-- `OHLCVSanitizer.SetTimeframe`: replace the timeframe, then `Reset`. -/
def SetTimeframe (s : OHLCVSanitizer) (timeframe : Timeframe) : OHLCVSanitizer :=
  Reset { s with timeframe := timeframe }

/-- The candles one `SanitizeBatch` call retains from the sorted batch: the
first record of each run of equal timestamps, minus records inside the
already-seen range. This mirrors the skip logic of `sanitizeLoop` exactly,
without gap synthesis. -/
def keptFrom (s : OHLCVSanitizer) :
    Option Int → List OHLCVRecord → List OHLCVRecord
  | _, [] => []
  | prevOt, c :: rest =>
    if isInternalDup prevOt c || isExternalDup s c then
      keptFrom s (some c.OpenTime) rest
    else c :: keptFrom s (some c.OpenTime) rest

/-- Content of the caller's slice after `SanitizeBatch` returns: an empty
batch is returned before the sort; otherwise `sort.Slice` has permuted the
caller's backing array in place, and nothing later writes to it. -/
def batchAfterSanitize (batch sorted : List OHLCVRecord) : List OHLCVRecord :=
  if batch.isEmpty then batch else sorted

/-- Number of iterations the gap loop performs when the step is positive. -/
def numFills (dur target start : Int) : Nat :=
  if target ≤ start then 0 else ((target - start).toNat - 1) / dur.toNat + 1

/-- A sequence of `SanitizeBatch` calls on one sanitizer, concatenating the
outputs; `none` as soon as one call panics or diverges. -/
def runBatches (s : OHLCVSanitizer) :
    List (List OHLCVRecord) → Option (List OHLCVRecord × OHLCVSanitizer)
  | [] => some ([], s)
  | b :: rest =>
    match SanitizeBatch s b with
    | none => none
    | some (out, s1) =>
      match runBatches s1 rest with
      | none => none
      | some (outs, s2) => some (out ++ outs, s2)

/-- Sanitizer states reachable through the public interface: a fresh
sanitizer followed by any sequence of successful `SanitizeBatch` calls on
sorted slices, `Reset`, and `SetTimeframe`. -/
inductive Reachable : OHLCVSanitizer → Prop
  | new (tf : Timeframe) : Reachable (NewOHLCVSanitizer tf)
  | sanitize {s : OHLCVSanitizer} {sorted out : List OHLCVRecord}
      {s1 : OHLCVSanitizer} : Reachable s →
      sorted.Pairwise (fun a b => a.OpenTime ≤ b.OpenTime) →
      SanitizeBatch s sorted = some (out, s1) → Reachable s1
  | reset {s : OHLCVSanitizer} : Reachable s → Reachable (Reset s)
  | settf {s : OHLCVSanitizer} (tf : Timeframe) : Reachable s →
      Reachable (SetTimeframe s tf)

end utils

namespace trading

open gotime

/-- `Timeframe.LastOpen` (trading/timeframe.go). The result is `none` when
Go raises the runtime panic `integer divide by zero`: in the minute branch
when `tf.ToMinutes() % 60 == 0` (for instance a `60m` timeframe), and in the
hour branch when `int(tf.Value) == 0`. `%` on Go integers is truncated
division remainder, `Int.tmod`. -/
def LastOpen (tf : Timeframe) (openTime : Time) : Option Time :=
  let localTime := InLocation tf openTime
  if tf.Unit = Minutes then
    let lt := utils.StartOfMinute localTime
    let delta := Int.tmod (ToMinutes tf) 60
    if delta = 0 then none
    else
      let distance := Int.tmod lt.Minute delta * (-1)
      some (lt.AddNanos (wrap64 (distance * 60000000000)))
  else if tf.Unit = Hours then
    let lt := utils.StartOfHour localTime
    let v := int64OfUInt64 tf.Value
    if v = 0 then none
    else
      let distance := Int.tmod lt.Hour v * (-1)
      some (lt.AddNanos (wrap64 (distance * 3600000000000)))
  else if tf.Unit = Days then some (utils.StartOfDay localTime)
  else if tf.Unit = Weeks then some (utils.StartOfWeek localTime)
  else if tf.Unit = Months then some (utils.StartOfMonth localTime)
  else if tf.Unit = Years then some (utils.StartOfYear localTime)
  else some localTime

/-- `Timeframe.NextOpen`: the time itself when it already equals its
`LastOpen` (compared with `Time.Equal`), otherwise one period past
`LastOpen` — calendar-exact `AddDate` for months and years, a
`ToMinutes()`-minute duration otherwise. -/
def NextOpen (tf : Timeframe) (openTime : Time) : Option Time :=
  match LastOpen tf openTime with
  | none => none
  | some lastOpen =>
    if lastOpen.EqualTime openTime then some openTime
    else if tf.Unit = Months then
      some (lastOpen.AddDate 0 (int64OfUInt64 tf.Value) 0)
    else if tf.Unit = Years then
      some (lastOpen.AddDate (int64OfUInt64 tf.Value) 0 0)
    else some (lastOpen.AddNanos (wrap64 (ToMinutes tf * 60000000000)))

/-- `Timeframe.CloseTime`: floor to `LastOpen`, then unconditionally add one
period — calendar-exact for months and years, a `ToMinutes()`-minute
duration otherwise. -/
def CloseTime (tf : Timeframe) (openTime : Time) : Option Time :=
  match LastOpen tf openTime with
  | none => none
  | some ot =>
    if tf.Unit = Months then some (ot.AddDate 0 (int64OfUInt64 tf.Value) 0)
    else if tf.Unit = Years then some (ot.AddDate (int64OfUInt64 tf.Value) 0 0)
    else some (ot.AddNanos (wrap64 (ToMinutes tf * 60000000000)))

/-- Error cases of `TimeframeFromString`; Go returns `error` values, and
only which case fired matters here. -/
inductive TimeframeError where
  | invalidFormat
  | invalidString
  | badDigits
  | unknownUnit
  | invalidTimeZone
deriving DecidableEq, Repr

/-- `strings.Split(str, ":")` at the character level. The separator `:` is
a single ASCII byte and UTF-8 continuation bytes are always ≥ 0x80, so Go's
byte-level split and this character-level split produce the same groups. -/
def splitOnColon : List Char → List (List Char)
  | [] => [[]]
  | c :: rest =>
    let r := splitOnColon rest
    if c = ':' then [] :: r
    else
      match r with
      | [] => [[c]]
      | g :: gs => (c :: g) :: gs

/-- `strconv.ParseUint(s, 10, 64)`: the string must be nonempty and all
ASCII decimal digits (base 10 allows no sign, prefix or underscore), and the
value must fit in 64 bits (`ErrRange` otherwise). -/
def parseUint64 (s : List Char) : Option Nat :=
  if s.isEmpty then none
  else if s.all (fun ch => ch.isDigit) then
    let v := s.foldl (fun acc ch => acc * 10 + (ch.toNat - 48)) 0
    if v < 2 ^ 64 then some v else none
  else none

/-- `trading.TimeframeFromString`. `loadLocation` abstracts
`time.LoadLocation` (the host's IANA zone database); `"UTC"` is
special-cased before the database is consulted, and a missing or empty zone
part defaults to UTC. The value/unit slicing is by character; it coincides
with Go's byte slicing on every accepted input, because acceptance forces
the value digits and the unit character to be ASCII. -/
def TimeframeFromString (loadLocation : String → Option gotime.Location)
    (str : String) : Except TimeframeError Timeframe :=
  let parts := splitOnColon str.toList
  match parts with
  | [] => Except.error TimeframeError.invalidFormat
  | valUnit :: restParts =>
    if valUnit.length < 2 then Except.error TimeframeError.invalidString
    else
      match parseUint64 valUnit.dropLast with
      | none => Except.error TimeframeError.badDigits
      | some valStr =>
        let unit : Unit :=
          match valUnit.getLast? with
          | some uc => String.mk [uc]
          | none => ""
        if UnitIsValid unit = false then Except.error TimeframeError.unknownUnit
        else
          let locRes : Except TimeframeError (Option gotime.Location) :=
            match restParts with
            | p1 :: _ =>
              if p1 = [] then Except.ok (some UTC)
              else if p1 = "UTC".toList then Except.ok (some UTC)
              else
                match loadLocation (String.mk p1) with
                | some loc => Except.ok (some loc)
                | none => Except.error TimeframeError.invalidTimeZone
            | [] => Except.ok (some UTC)
          match locRes with
          | Except.error e => Except.error e
          | Except.ok location => Except.ok ⟨0, 0, valStr, unit, location⟩

end trading

namespace utils

open trading

/-- Error cases of `validateRecord`, in the order the source checks them. -/
inductive RecordError where
  | invalidOpenTime
  | invalidOpenPrice
  | invalidHighPrice
  | invalidLowPrice
  | invalidClosePrice
  | highBelowLow
  | highBelowOpenOrClose
  | lowAboveOpenOrClose
  | invalidVolume
deriving DecidableEq, Repr

/-- `validateRecord` (the single-record check of `ValidateBatch`),
parameterized by the float parser `pf` and its linearly ordered value type.
The source parses with `parseFloat`, a thin wrapper around
`fmt.Sscanf(s, "%f", &f)` from the Go standard library; every property
claimed of the validator holds for an arbitrary parser, so the parser stays
abstract here. -/
def validateRecord {F : Type} [LinearOrder F] (pf : String → Option F)
    (record : OHLCVRecord) : Option RecordError :=
  if record.OpenTime ≤ 0 then some RecordError.invalidOpenTime
  else
    match pf record.Open with
    | none => some RecordError.invalidOpenPrice
    | some o =>
      match pf record.High with
      | none => some RecordError.invalidHighPrice
      | some high =>
        match pf record.Low with
        | none => some RecordError.invalidLowPrice
        | some low =>
          match pf record.Close with
          | none => some RecordError.invalidClosePrice
          | some cl =>
            if high < low then some RecordError.highBelowLow
            else if high < o ∨ high < cl then
              some RecordError.highBelowOpenOrClose
            else if low > o ∨ low > cl then
              some RecordError.lowAboveOpenOrClose
            else
              match pf record.Volume with
              | none => some RecordError.invalidVolume
              | some _ => none

/-- The loop of `ValidateBatch` from batch index `i`. -/
def validateFrom {F : Type} [LinearOrder F] (pf : String → Option F)
    (i : Nat) : List OHLCVRecord → Option (Nat × RecordError)
  | [] => none
  | r :: rest =>
    match validateRecord pf r with
    | some e => some (i, e)
    | none => validateFrom pf (i + 1) rest

/-- `OHLCVSanitizer.ValidateBatch`: the first violating record's error,
tagged with its batch index; `none` when every record passes. The `s`
parameter is the Go method receiver, which the body never reads or
writes. -/
def ValidateBatch {F : Type} [LinearOrder F] (pf : String → Option F)
    (s : OHLCVSanitizer) (batch : List OHLCVRecord) :
    Option (Nat × RecordError) :=
  let _ := s
  validateFrom pf 0 batch

/-- The single-record invariant of the claim, phrased as the spec phrases
it: `high < low`, or `high < max(open, close)`, or `low > min(open, close)`,
or `openTime ≤ 0`, or a field the parser rejects. -/
def recordViolation {F : Type} [LinearOrder F] (pf : String → Option F)
    (r : OHLCVRecord) : Bool :=
  decide (r.OpenTime ≤ 0) ||
    (match pf r.Open, pf r.High, pf r.Low, pf r.Close with
     | some o, some high, some low, some cl =>
       decide (high < low) || decide (high < max o cl) ||
         decide (low > min o cl)
     | _, _, _, _ => true) ||
    (pf r.Volume).isNone

/-- A concrete instantiation of the abstract float parser, used only to
exercise the validator theorems on concrete batches: unsigned decimal
integers. -/
def sampleParser (s : String) : Option Int :=
  match s.toList with
  | [] => none
  | cs =>
    if cs.all (fun ch => ch.isDigit) then
      some (Int.ofNat (cs.foldl (fun acc ch => acc * 10 + (ch.toNat - 48)) 0))
    else none

end utils

open gotime in
/-- Concrete 5-minute UTC timeframe used by counterexamples. -/
def tfFiveMin : trading.Timeframe := ⟨0, 0, 5, "m", some UTC⟩

open gotime in
/-- The Unix epoch instant, displayed in UTC. -/
def epochTime : Time := ⟨0, UTC⟩

/-- Claim C3 (counterexample): at the 5-minute timeframe and the epoch
instant — itself a period boundary — `NextOpen (LastOpen t)` returns the
boundary unchanged while `CloseTime t` is one period later, so
`CloseTime(t) = NextOpen(LastOpen(t))` is false. -/
theorem C3_closeTime_counterexample :
    trading.LastOpen tfFiveMin epochTime = some epochTime ∧
      (trading.LastOpen tfFiveMin epochTime).bind (trading.NextOpen tfFiveMin) =
        some epochTime ∧
      trading.CloseTime tfFiveMin epochTime = some ⟨300000000000, gotime.UTC⟩ ∧
      ¬ ((trading.LastOpen tfFiveMin epochTime).bind (trading.NextOpen tfFiveMin) =
          trading.CloseTime tfFiveMin epochTime) := by
  refine ⟨by decide, by decide, by decide, by decide⟩

/-- Claim C3 (amended): `CloseTime(t)` equals `NextOpen(t)` for every time
`t` that is not itself a boundary (`LastOpen(t) ≠ t`); on a boundary,
`NextOpen` is the identity while `CloseTime` still adds one period, which is
where the claimed identity `closeTime(t) = nextOpen(lastOpen(t))` fails. -/
theorem C3_closeTime_amended (tf : trading.Timeframe) (t lo : gotime.Time)
    (h : trading.LastOpen tf t = some lo)
    (hne : lo.EqualTime t = false) :
    trading.NextOpen tf t = trading.CloseTime tf t := by
  unfold trading.NextOpen trading.CloseTime
  rw [h]
  simp [hne]

/-- Witness for `C3_closeTime_amended`: the 5-minute timeframe at 700 s past
the epoch, which is not a boundary; both sides are 900 s. -/
theorem C3_closeTime_amended_witness :
    trading.LastOpen tfFiveMin ⟨700000000000, gotime.UTC⟩ =
        some ⟨600000000000, gotime.UTC⟩ ∧
      trading.NextOpen tfFiveMin ⟨700000000000, gotime.UTC⟩ =
        trading.CloseTime tfFiveMin ⟨700000000000, gotime.UTC⟩ :=
  ⟨by decide,
    C3_closeTime_amended tfFiveMin ⟨700000000000, gotime.UTC⟩
      ⟨600000000000, gotime.UTC⟩ (by decide) (by decide)⟩

open gotime in
/-- A `60m` timeframe, exactly as `TimeframeFromString` produces it. -/
def tfSixtyMin : trading.Timeframe := ⟨0, 0, 60, "m", some UTC⟩

/-- Claim C4 (code bug): the parser accepts `"60m"`, yet `LastOpen` on the
resulting minute-unit timeframe computes `ToMinutes() % 60 = 0` and then
evaluates `localTime.Minute() % 0` — an integer-divide-by-zero runtime panic
(`none` in the model) — instead of flooring to the hour boundary. -/
theorem C4_lastOpen_panics_on_60m :
    trading.TimeframeFromString (fun _ => none) "60m" = Except.ok tfSixtyMin ∧
      trading.LastOpen tfSixtyMin epochTime = none :=
  ⟨rfl, by decide⟩

/-- Claim C5 (counterexample): `TimeframeFromString` accepts `"0m"` and
returns a timeframe whose value is zero, so parsing can succeed with a zero
value. -/
theorem C5_parse_counterexample :
    trading.TimeframeFromString (fun _ => none) "0m" =
      Except.ok ⟨0, 0, 0, trading.Minutes, some gotime.UTC⟩ :=
  rfl

/-- Helper: a value accepted by `strconv.ParseUint(s, 10, 64)` fits in 64
bits. -/
theorem parseUint64_lt {s : List Char} {v : Nat}
    (h : trading.parseUint64 s = some v) : v < 2 ^ 64 := by
  unfold trading.parseUint64 at h
  dsimp only [] at h
  split at h
  · exact Option.noConfusion h
  · split at h
    · split at h
      · injection h with h1
        omega
      · exact Option.noConfusion h
    · exact Option.noConfusion h

/-- Claim C5 (amended): every input accepted by `TimeframeFromString` yields
a unit in the allowed set (m, h, D, W, M, Y) and a value below 2^64, but the
value may be zero — `"0m"` is accepted. -/
theorem C5_parse_amended (loadLocation : String → Option gotime.Location)
    (str : String) (tf : trading.Timeframe)
    (h : trading.TimeframeFromString loadLocation str = Except.ok tf) :
    trading.UnitIsValid tf.Unit = true ∧ tf.Value < 2 ^ 64 := by
  unfold trading.TimeframeFromString at h
  dsimp only [] at h
  split at h
  · exact Except.noConfusion h
  · rename_i valUnit restParts
    split at h
    · exact Except.noConfusion h
    · split at h
      · exact Except.noConfusion h
      · rename_i v hv
        split at h
        · exact Except.noConfusion h
        · rename_i hunit
          split at h
          · exact Except.noConfusion h
          · rename_i loc hloc
            injection h with h1
            subst h1
            refine ⟨by simpa using hunit, parseUint64_lt hv⟩

/-- Witness for `C5_parse_amended`: apply it to the accepted input
`"15m"`. -/
theorem C5_parse_amended_witness :
    trading.UnitIsValid (⟨0, 0, 15, trading.Minutes, some gotime.UTC⟩ :
        trading.Timeframe).Unit = true ∧
      (⟨0, 0, 15, trading.Minutes, some gotime.UTC⟩ :
        trading.Timeframe).Value < 2 ^ 64 :=
  C5_parse_amended (fun _ => none) "15m" _ rfl

open utils trading gotime

/-- Two records sharing `OpenTime` 1000, distinguishable by `Close`. -/
def dupFirst : OHLCVRecord := ⟨1000, "1", "1", "1", "A", "10"⟩

/-- The later-submitted duplicate of `dupFirst`. -/
def dupSecond : OHLCVRecord := ⟨1000, "1", "1", "1", "B", "10"⟩

/-- Claim C6 (exhibit): for the batch `[dupFirst, dupSecond]` both orders of
the two equal-timestamp records satisfy the `sort.Slice` contract the code
relies on, and under the second admissible order `SanitizeBatch` retains
`dupSecond` — not the record that appeared earliest in the caller's input.
The contract the code uses therefore does not guarantee the claim; only
`sort.SliceStable` would. -/
theorem C6_sort_not_stable :
    sortSliceAdmissible [dupFirst, dupSecond] [dupFirst, dupSecond] ∧
      sortSliceAdmissible [dupFirst, dupSecond] [dupSecond, dupFirst] ∧
      (SanitizeBatch (NewOHLCVSanitizer tfFiveMin) [dupSecond, dupFirst]).map
          (fun p => p.1) = some [dupSecond] ∧
      dupSecond ≠ dupFirst := by
  refine ⟨⟨List.Perm.refl _, by decide⟩,
    ⟨List.Perm.swap _ _ _, by decide⟩, by decide, by decide⟩

/-- A record at time 100. -/
def recEarly : OHLCVRecord := ⟨100, "1", "1", "1", "1", "1"⟩

/-- A record at time 200. -/
def recLate : OHLCVRecord := ⟨200, "2", "2", "2", "2", "2"⟩

/-- Claim C9 (counterexample): for the unsorted caller batch
`[recLate, recEarly]`, the in-place `sort.Slice` leaves the caller's slice
in sorted order `[recEarly, recLate]` — the records are no longer in their
original positions after `SanitizeBatch` returns. -/
theorem C9_batch_mutation_counterexample :
    sortSliceAdmissible [recLate, recEarly] [recEarly, recLate] ∧
      batchAfterSanitize [recLate, recEarly] [recEarly, recLate] ≠
        [recLate, recEarly] := by
  refine ⟨⟨List.Perm.swap _ _ _, by decide⟩, by decide⟩

/-- Claim C9 (amended): `SanitizeBatch` never mutates the fields of any
caller record — after the call the caller's slice holds exactly the same
records, permuted into nondecreasing `OpenTime` order by the in-place sort
(an empty batch is untouched) — and the sanitizer state only ever stores
record values taken from its previous state or from the returned output,
never anything else derived from the caller's slice. -/
theorem C9_batch_mutation_amended (s : OHLCVSanitizer)
    (batch sorted : List OHLCVRecord)
    (h : sortSliceAdmissible batch sorted) :
    (batchAfterSanitize batch sorted).Perm batch ∧
      (batch = [] → batchAfterSanitize batch sorted = batch) ∧
      (batch ≠ [] → (batchAfterSanitize batch sorted).Pairwise
        (fun a b => a.OpenTime ≤ b.OpenTime)) ∧
      (∀ out s', SanitizeBatch s sorted = some (out, s') →
        (s'.firstCandle = s.firstCandle ∨ ∃ r ∈ out, s'.firstCandle = some r) ∧
          (s'.lastCandle = s.lastCandle ∨ ∃ r ∈ out, s'.lastCandle = some r)) := by
  obtain ⟨hperm, hsort⟩ := h
  refine ⟨?_, ?_, ?_, ?_⟩
  · unfold batchAfterSanitize
    split
    · exact List.Perm.refl _
    · exact hperm
  · intro hb
    subst hb
    rfl
  · intro hb
    unfold batchAfterSanitize
    rw [if_neg (by simpa using hb)]
    exact hsort
  · intro out s' hcall
    unfold SanitizeBatch at hcall
    split at hcall
    · cases hcall
      exact ⟨Or.inl rfl, Or.inl rfl⟩
    · rename_i c0 cs
      dsimp only [] at hcall
      split at hcall
      · exact Option.noConfusion hcall
      · cases hcall
        exact ⟨Or.inl rfl, Or.inl rfl⟩
      · rename_i r0 rs hres
        split at hcall
        · exact Option.noConfusion hcall
        · rename_i s1 hs1
          split at hcall
          · exact Option.noConfusion hcall
          · rename_i s2 hs2
            simp only [Option.some.injEq, Prod.mk.injEq] at hcall
            obtain ⟨hout, hstate⟩ := hcall
            subst hout
            subst hstate
            have hfc : s1.firstCandle = s.firstCandle ∨ s1.firstCandle = some r0 := by
              split at hs1
              · cases hs1
                exact Or.inr rfl
              · split at hs1
                · exact Option.noConfusion hs1
                · split at hs1 <;> cases hs1
                  · exact Or.inr rfl
                  · exact Or.inl rfl
            have hfc2 : s2.firstCandle = s1.firstCandle := by
              split at hs2
              · cases hs2
                rfl
              · split at hs2
                · exact Option.noConfusion hs2
                · split at hs2 <;> cases hs2 <;> rfl
            have hl1 : s1.lastCandle = s.lastCandle := by
              split at hs1
              · cases hs1
                rfl
              · split at hs1
                · exact Option.noConfusion hs1
                · split at hs1 <;> cases hs1 <;> rfl
            have hlast : s2.lastCandle = s1.lastCandle ∨
                s2.lastCandle = some ((r0 :: rs).getLast (List.cons_ne_nil r0 rs)) := by
              split at hs2
              · cases hs2
                exact Or.inr rfl
              · split at hs2
                · exact Option.noConfusion hs2
                · split at hs2 <;> cases hs2
                  · exact Or.inr rfl
                  · exact Or.inl rfl
            constructor
            · rcases hfc with h3 | h3
              · exact Or.inl (by simp [hfc2, h3])
              · exact Or.inr ⟨r0, List.mem_cons_self _ _, by simp [hfc2, h3]⟩
            · rcases hlast with h3 | h3
              · exact Or.inl (by simp [h3, hl1])
              · exact Or.inr ⟨(r0 :: rs).getLast (List.cons_ne_nil r0 rs),
                  List.getLast_mem (List.cons_ne_nil r0 rs), by simp [h3]⟩

/-- Witness for `C9_batch_mutation_amended`: the two-record unsorted batch
above, on a fresh sanitizer. -/
theorem C9_batch_mutation_amended_witness :
    (batchAfterSanitize [recLate, recEarly] [recEarly, recLate]).Perm
        [recLate, recEarly] ∧
      ([recLate, recEarly] = ([] : List OHLCVRecord) →
        batchAfterSanitize [recLate, recEarly] [recEarly, recLate] =
          [recLate, recEarly]) ∧
      ([recLate, recEarly] ≠ ([] : List OHLCVRecord) →
        (batchAfterSanitize [recLate, recEarly] [recEarly, recLate]).Pairwise
          (fun a b => a.OpenTime ≤ b.OpenTime)) ∧
      (∀ out s', SanitizeBatch (NewOHLCVSanitizer tfFiveMin) [recEarly, recLate] =
          some (out, s') →
        (s'.firstCandle = (NewOHLCVSanitizer tfFiveMin).firstCandle ∨
            ∃ r ∈ out, s'.firstCandle = some r) ∧
          (s'.lastCandle = (NewOHLCVSanitizer tfFiveMin).lastCandle ∨
            ∃ r ∈ out, s'.lastCandle = some r)) :=
  C9_batch_mutation_amended (NewOHLCVSanitizer tfFiveMin) [recLate, recEarly]
    [recEarly, recLate] ⟨List.Perm.swap _ _ _, by decide⟩

namespace utils

/-- The value of the gap loop for a positive step: fillers at
`start + k * dur` for `k < numFills`. -/
def gapList (dur : Int) (cl : String) (target start : Int) : List OHLCVRecord :=
  (List.range (numFills dur target start)).map
    (fun (k : Nat) => mkGapCandle (start + (k : Int) * dur) cl)

theorem numFills_step (dur target start : Int) (hd : 0 < dur)
    (hlt : start < target) :
    numFills dur target start = numFills dur target (start + dur) + 1 := by
  unfold numFills
  rw [if_neg (by omega)]
  by_cases hc : target ≤ start + dur
  · rw [if_pos hc]
    have hg : (target - start).toNat - 1 < dur.toNat := by omega
    rw [Nat.div_eq_of_lt hg]
  · rw [if_neg hc]
    have hd' : 0 < dur.toNat := by omega
    have hge : dur.toNat ≤ (target - start).toNat - 1 := by omega
    have heq : (target - start).toNat - 1 - dur.toNat =
        (target - (start + dur)).toNat - 1 := by omega
    rw [Nat.div_eq_sub_div hd' hge, heq]

theorem gapList_cons (dur : Int) (cl : String) (target start : Int)
    (hd : 0 < dur) (hlt : start < target) :
    gapList dur cl target start =
      mkGapCandle start cl :: gapList dur cl target (start + dur) := by
  unfold gapList
  rw [numFills_step dur target start hd hlt, List.range_succ_eq_map,
    List.map_cons, List.map_map]
  congr 1
  · simp [mkGapCandle]
  · apply List.map_congr_left
    intro k _
    simp only [Function.comp_apply]
    congr 1
    push_cast
    ring

theorem gapIter_sufficient (dur : Int) (cl : String) (target : Int)
    (hd : 0 < dur) :
    ∀ (fuel : Nat) (start : Int), target - start ≤ (fuel : Int) →
      gapIter dur cl target fuel start = some (gapList dur cl target start) := by
  intro fuel
  induction fuel with
  | zero =>
    intro start h
    unfold gapIter
    rw [if_neg (by omega)]
    unfold gapList numFills
    rw [if_pos (by omega)]
    rfl
  | succ n ih =>
    intro start h
    unfold gapIter
    by_cases hlt : start < target
    · rw [if_pos hlt, ih (start + dur) (by omega)]
      rw [gapList_cons dur cl target start hd hlt]
      rfl
    · rw [if_neg hlt]
      unfold gapList numFills
      rw [if_pos (by omega)]
      rfl

theorem gapFill_pos (dur : Int) (cl : String) (target start : Int)
    (hd : 0 < dur) :
    gapFill dur cl target start = some (gapList dur cl target start) := by
  unfold gapFill
  rw [if_pos hd]
  exact gapIter_sufficient dur cl target hd _ start (by omega)

theorem gapFill_none_of_nonpos (dur : Int) (cl : String) (target start : Int)
    (hd : dur ≤ 0) (hst : start < target) :
    gapFill dur cl target start = none := by
  unfold gapFill
  rw [if_neg (by omega)]
  unfold gapIter
  rw [if_pos hst]

theorem lt_numFills_iff (dur target start : Int) (hd : 0 < dur) (j : Nat) :
    j < numFills dur target start ↔ start + (j : Int) * dur < target := by
  unfold numFills
  by_cases hts : target ≤ start
  · rw [if_pos hts]
    simp only [Nat.not_lt_zero, false_iff, not_lt]
    have hnn : 0 ≤ (j : Int) * dur := mul_nonneg (by positivity) hd.le
    exact hts.trans (le_add_of_nonneg_right hnn)
  · rw [if_neg hts]
    have hd' : 0 < dur.toNat := by omega
    have hjq : j < ((target - start).toNat - 1) / dur.toNat + 1 ↔
        j * dur.toNat ≤ (target - start).toNat - 1 := by
      rw [Nat.lt_succ_iff, Nat.le_div_iff_mul_le hd']
    rw [hjq]
    have hcast : ((j * dur.toNat : Nat) : Int) = (j : Int) * dur := by
      push_cast
      rw [Int.toNat_of_nonneg hd.le]
    have h5 : (((target - start).toNat - 1 : Nat) : Int) = target - start - 1 := by
      omega
    constructor
    · intro hle
      have h6 : ((j * dur.toNat : Nat) : Int) ≤
          (((target - start).toNat - 1 : Nat) : Int) := by exact_mod_cast hle
      rw [hcast, h5] at h6
      linarith
    · intro hlt
      have h3 : (j : Int) * dur ≤ target - start - 1 := by linarith
      have h4 : ((j * dur.toNat : Nat) : Int) ≤
          (((target - start).toNat - 1 : Nat) : Int) := by
        rw [hcast, h5]
        exact h3
      exact_mod_cast h4

theorem gapList_mem_fields (dur : Int) (cl : String) (target start : Int)
    (r : OHLCVRecord) (hr : r ∈ gapList dur cl target start) :
    r.Open = cl ∧ r.High = cl ∧ r.Low = cl ∧ r.Close = cl ∧
      r.Volume = "0.00000000" := by
  unfold gapList at hr
  obtain ⟨k, _, rfl⟩ := List.mem_map.mp hr
  exact ⟨rfl, rfl, rfl, rfl, rfl⟩

theorem gapList_pairwise (dur : Int) (cl : String) (target start : Int)
    (hd : 0 < dur) :
    (gapList dur cl target start).Pairwise
      (fun a b => a.OpenTime < b.OpenTime) := by
  unfold gapList
  refine List.Pairwise.map _ ?_ (List.pairwise_lt_range _)
  intro a b hab
  simp only [mkGapCandle]
  have : (a : Int) * dur < (b : Int) * dur :=
    mul_lt_mul_of_pos_right (by exact_mod_cast hab) hd
  linarith

theorem gapList_bounds (dur : Int) (cl : String) (target lc : Int)
    (hd : 0 < dur) (r : OHLCVRecord)
    (hr : r ∈ gapList dur cl target (lc + dur)) :
    lc < r.OpenTime ∧ r.OpenTime < target := by
  unfold gapList at hr
  obtain ⟨k, hk, rfl⟩ := List.mem_map.mp hr
  have hlt := (lt_numFills_iff dur target (lc + dur) hd k).mp
    (List.mem_range.mp hk)
  have hnn : 0 ≤ (k : Int) * dur := mul_nonneg (by positivity) hd.le
  constructor
  · simp only [mkGapCandle]
    linarith
  · simpa [mkGapCandle] using hlt

theorem gapList_ts_iff (dur : Int) (cl : String) (target lc : Int)
    (hd : 0 < dur) (ts : Int) :
    (∃ r ∈ gapList dur cl target (lc + dur), r.OpenTime = ts) ↔
      ∃ k : Int, 1 ≤ k ∧ ts = lc + k * dur ∧ ts < target := by
  constructor
  · rintro ⟨r, hr, rfl⟩
    unfold gapList at hr
    obtain ⟨j, hj, rfl⟩ := List.mem_map.mp hr
    have hlt := (lt_numFills_iff dur target (lc + dur) hd j).mp
      (List.mem_range.mp hj)
    refine ⟨(j : Int) + 1, by omega, ?_, by simpa [mkGapCandle] using hlt⟩
    simp only [mkGapCandle]
    ring
  · rintro ⟨k, hk1, rfl, hlt⟩
    have hj : ((k - 1).toNat : Int) = k - 1 := Int.toNat_of_nonneg (by omega)
    refine ⟨mkGapCandle (lc + k * dur) cl, ?_, rfl⟩
    unfold gapList
    refine List.mem_map.mpr ⟨(k - 1).toNat, List.mem_range.mpr ?_, ?_⟩
    · rw [lt_numFills_iff dur target (lc + dur) hd, hj]
      have : lc + dur + (k - 1) * dur = lc + k * dur := by ring
      rw [this]
      exact hlt
    · rw [hj]
      congr 1
      ring

end utils

namespace utils

theorem keptFrom_subset (s : OHLCVSanitizer) :
    ∀ (cs : List OHLCVRecord) (p : Option Int) (y : OHLCVRecord),
      y ∈ keptFrom s p cs → y ∈ cs := by
  intro cs
  induction cs with
  | nil => intro p y h; simp [keptFrom] at h
  | cons c rest ih =>
    intro p y h
    unfold keptFrom at h
    split at h
    · exact List.mem_cons_of_mem _ (ih _ _ h)
    · rcases List.mem_cons.mp h with h1 | h1
      · exact h1 ▸ List.mem_cons_self _ _
      · exact List.mem_cons_of_mem _ (ih _ _ h1)

theorem keptFrom_avoid (s : OHLCVSanitizer) (f l : OHLCVRecord)
    (hinit : s.initialized = true) (hf : s.firstCandle = some f)
    (hl : s.lastCandle = some l) :
    ∀ (cs : List OHLCVRecord) (p : Option Int) (y : OHLCVRecord),
      y ∈ keptFrom s p cs →
      y.OpenTime < f.OpenTime ∨ l.OpenTime < y.OpenTime := by
  intro cs
  induction cs with
  | nil => intro p y h; simp [keptFrom] at h
  | cons c rest ih =>
    intro p y h
    unfold keptFrom at h
    split at h
    · exact ih _ _ h
    · rename_i hcond
      rcases List.mem_cons.mp h with h1 | h1
      · subst h1
        simp only [Bool.or_eq_true, not_or, Bool.not_eq_true] at hcond
        have hext := hcond.2
        simp [isExternalDup, hinit, hf, hl] at hext
        rcases le_or_lt f.OpenTime y.OpenTime with h4 | h4
        · exact Or.inr (hext h4)
        · exact Or.inl h4
      · exact ih _ _ h1

theorem keptFrom_gt_prev (s : OHLCVSanitizer) :
    ∀ (cs : List OHLCVRecord),
      cs.Pairwise (fun a b => a.OpenTime ≤ b.OpenTime) →
      ∀ (pv : Int), (∀ x ∈ cs, pv ≤ x.OpenTime) →
        ∀ y ∈ keptFrom s (some pv) cs, pv < y.OpenTime := by
  intro cs
  induction cs with
  | nil => intro _ pv _ y h; simp [keptFrom] at h
  | cons c rest ih =>
    intro hpair pv hbound y hy
    obtain ⟨hc, hrest⟩ := List.pairwise_cons.mp hpair
    have h3 : pv ≤ c.OpenTime := hbound c (List.mem_cons_self _ _)
    unfold keptFrom at hy
    split at hy
    · have h2 := ih hrest c.OpenTime hc y hy
      omega
    · rename_i hcond
      simp only [Bool.or_eq_true, not_or, Bool.not_eq_true] at hcond
      rcases List.mem_cons.mp hy with h1 | h1
      · subst h1
        have hint := hcond.1
        simp [isInternalDup] at hint
        omega
      · have h2 := ih hrest c.OpenTime hc y h1
        omega

theorem keptFrom_pairwise (s : OHLCVSanitizer) :
    ∀ (cs : List OHLCVRecord),
      cs.Pairwise (fun a b => a.OpenTime ≤ b.OpenTime) →
      ∀ p, (keptFrom s p cs).Pairwise
        (fun a b => a.OpenTime < b.OpenTime) := by
  intro cs
  induction cs with
  | nil => intro _ p; simp [keptFrom]
  | cons c rest ih =>
    intro hpair p
    obtain ⟨hc, hrest⟩ := List.pairwise_cons.mp hpair
    unfold keptFrom
    split
    · exact ih hrest _
    · refine List.pairwise_cons.mpr ⟨?_, ih hrest _⟩
      intro y hy
      exact keptFrom_gt_prev s rest hrest c.OpenTime hc y hy

theorem sanitizeLoop_unarmed (dur : Int) (s : OHLCVSanitizer) :
    ∀ (cs : List OHLCVRecord) (p : Option Int) (acc : List OHLCVRecord),
      (acc ≠ [] ∨ s.initialized = false ∨ s.lastCandle = none) →
      sanitizeLoop dur s cs p acc = some (acc ++ keptFrom s p cs) := by
  intro cs
  induction cs with
  | nil => intro p acc h; simp [sanitizeLoop, keptFrom]
  | cons c rest ih =>
    intro p acc h
    unfold sanitizeLoop keptFrom
    cases hint : isInternalDup p c with
    | true =>
      simp only [Bool.true_or, if_true]
      exact ih _ _ h
    | false =>
      cases hext : isExternalDup s c with
      | true =>
        simp only [Bool.false_eq_true, if_false, Bool.false_or, if_true]
        exact ih _ _ h
      | false =>
        simp only [Bool.false_eq_true, if_false, Bool.or_self]
        have hcond : (acc.isEmpty && s.initialized && s.lastCandle.isSome)
            = false := by
          rcases h with h | h | h
          · cases acc with
            | nil => exact absurd rfl h
            | cons a as => simp
          · simp [h]
          · simp [h]
        simp only [hcond, Bool.false_eq_true, if_false, Option.some_bind]
        rw [ih _ (acc ++ [c]) (Or.inl (by simp))]
        simp

theorem sanitizeLoop_armed (dur : Int) (s : OHLCVSanitizer) (l : OHLCVRecord)
    (hinit : s.initialized = true) (hl : s.lastCandle = some l) :
    ∀ (cs : List OHLCVRecord) (p : Option Int),
      sanitizeLoop dur s cs p [] =
        match keptFrom s p cs with
        | [] => some []
        | k :: ks =>
          if l.OpenTime < k.OpenTime then
            (gapFill dur l.Close k.OpenTime (l.OpenTime + dur)).map
              (fun g => g ++ k :: ks)
          else some (k :: ks) := by
  intro cs
  induction cs with
  | nil => intro p; simp [sanitizeLoop, keptFrom]
  | cons c rest ih =>
    intro p
    unfold sanitizeLoop keptFrom
    cases hint : isInternalDup p c with
    | true =>
      simp only [Bool.true_or, if_true]
      exact ih _
    | false =>
      cases hext : isExternalDup s c with
      | true =>
        simp only [Bool.false_eq_true, if_false, Bool.false_or, if_true]
        exact ih _
      | false =>
        simp only [Bool.false_eq_true, if_false, Bool.or_self]
        simp only [List.isEmpty_nil, hinit, hl, Option.isSome_some,
          Bool.and_self, Bool.true_and, Bool.and_true, if_true]
        by_cases hgap : l.OpenTime < c.OpenTime
        · rw [if_pos hgap, if_pos hgap]
          cases hfill : gapFill dur l.Close c.OpenTime (l.OpenTime + dur) with
          | none => simp [hfill]
          | some g =>
            simp only [hfill, Option.map_some', List.nil_append,
              Option.some_bind]
            rw [sanitizeLoop_unarmed dur s rest (some c.OpenTime) (g ++ [c])
              (Or.inl (by simp))]
            simp
        · rw [if_neg hgap, if_neg hgap]
          simp only [Option.some_bind, List.nil_append]
          rw [sanitizeLoop_unarmed dur s rest (some c.OpenTime) [c]
            (Or.inl (by simp))]
          simp

end utils

namespace utils

theorem SanitizeBatch_loop (s : OHLCVSanitizer)
    (sorted out : List OHLCVRecord) (s' : OHLCVSanitizer)
    (h : SanitizeBatch s sorted = some (out, s')) :
    sanitizeLoop (wrap64 (ToMinutes s.timeframe * 60)) s sorted none [] =
      some out := by
  unfold SanitizeBatch at h
  split at h
  · cases h
    rfl
  · rename_i c0 cs
    dsimp only [] at h
    split at h
    · exact Option.noConfusion h
    · rename_i hres
      cases h
      exact hres
    · rename_i r0 rs hres
      split at h
      · exact Option.noConfusion h
      · split at h
        · exact Option.noConfusion h
        · simp only [Option.some.injEq, Prod.mk.injEq] at h
          obtain ⟨hout, _⟩ := h
          rw [← hout]
          exact hres

theorem SanitizeBatch_state (s : OHLCVSanitizer)
    (sorted out : List OHLCVRecord) (s' : OHLCVSanitizer)
    (h : SanitizeBatch s sorted = some (out, s')) :
    (out = [] ∧ s' = s) ∨
    (s'.timeframe = s.timeframe ∧ s'.initialized = true ∧
      ∃ r0 rs, out = r0 :: rs ∧
        ((s.initialized = false ∧ s'.firstCandle = some r0 ∧
            s'.lastCandle =
              some ((r0 :: rs).getLast (List.cons_ne_nil r0 rs))) ∨
         (s.initialized = true ∧ ∃ f l, s.firstCandle = some f ∧
            s.lastCandle = some l ∧
            s'.firstCandle =
              some (if r0.OpenTime < f.OpenTime then r0 else f) ∧
            s'.lastCandle = some
              (if l.OpenTime <
                  ((r0 :: rs).getLast (List.cons_ne_nil r0 rs)).OpenTime
               then (r0 :: rs).getLast (List.cons_ne_nil r0 rs) else l)))) := by
  unfold SanitizeBatch at h
  split at h
  · cases h
    exact Or.inl ⟨rfl, rfl⟩
  · rename_i c0 cs
    dsimp only [] at h
    split at h
    · exact Option.noConfusion h
    · cases h
      exact Or.inl ⟨rfl, rfl⟩
    · rename_i r0 rs hres
      split at h
      · exact Option.noConfusion h
      · rename_i s1 hs1
        split at h
        · exact Option.noConfusion h
        · rename_i s2 hs2
          simp only [Option.some.injEq, Prod.mk.injEq] at h
          obtain ⟨hout, hstate⟩ := h
          subst hout
          subst hstate
          refine Or.inr ⟨?_, rfl, r0, rs, rfl, ?_⟩
          · -- timeframe is never modified
            have ht1 : s1.timeframe = s.timeframe := by
              split at hs1
              · cases hs1; rfl
              · split at hs1
                · exact Option.noConfusion hs1
                · split at hs1 <;> cases hs1 <;> rfl
            have ht2 : s2.timeframe = s1.timeframe := by
              split at hs2
              · cases hs2; rfl
              · split at hs2
                · exact Option.noConfusion hs2
                · split at hs2 <;> cases hs2 <;> rfl
            simp [ht2, ht1]
          · split at hs1
            · -- not initialized: both boundaries set from the output
              rename_i hini
              cases hs1
              split at hs2
              · cases hs2
                exact Or.inl ⟨by simpa using hini, rfl, rfl⟩
              · rename_i hini2
                exact absurd (by simpa using hini) (by simpa using hini2)
            · rename_i hini
              have hinit : s.initialized = true := by
                simpa using hini
              split at hs1
              · exact Option.noConfusion hs1
              · rename_i f hf
                split at hs2
                · rename_i hini2
                  exact absurd hinit (by simpa using hini2)
                · split at hs2
                  · exact Option.noConfusion hs2
                  · rename_i l hl
                    refine Or.inr ⟨hinit, f, l, hf, hl, ?_, ?_⟩
                    · have h1 : s1.firstCandle =
                          some (if r0.OpenTime < f.OpenTime then r0 else f) := by
                        split at hs1 <;> cases hs1 <;> rename_i hc
                        · rw [if_pos hc]
                        · rw [if_neg hc]
                          exact hf
                      have h2 : s2.firstCandle = s1.firstCandle := by
                        split at hs2 <;> cases hs2 <;> rfl
                      simpa [h2] using h1
                    · have h2 : s2.lastCandle = some
                          (if l.OpenTime <
                              ((r0 :: rs).getLast (List.cons_ne_nil r0 rs)).OpenTime
                           then (r0 :: rs).getLast (List.cons_ne_nil r0 rs)
                           else l) := by
                        split at hs2 <;> cases hs2 <;> rename_i hc
                        · rw [if_pos hc]
                        · rw [if_neg hc]
                          have h3 : s1.lastCandle = s.lastCandle := by
                            split at hs1 <;> cases hs1 <;> rfl
                          rw [h3, hl]
                      exact h2

theorem SanitizeBatch_out_spec (s : OHLCVSanitizer)
    (sorted out : List OHLCVRecord) (s' : OHLCVSanitizer)
    (h : SanitizeBatch s sorted = some (out, s')) :
    (∀ l, s.initialized = true → s.lastCandle = some l →
       (keptFrom s none sorted = [] → out = []) ∧
       (∀ k ks, keptFrom s none sorted = k :: ks →
         (l.OpenTime < k.OpenTime →
            0 < wrap64 (ToMinutes s.timeframe * 60) ∧
              out = gapList (wrap64 (ToMinutes s.timeframe * 60)) l.Close
                k.OpenTime
                (l.OpenTime + wrap64 (ToMinutes s.timeframe * 60)) ++
                k :: ks) ∧
         (¬ l.OpenTime < k.OpenTime → out = k :: ks))) ∧
    ((s.initialized = false ∨ s.lastCandle = none) →
      out = keptFrom s none sorted) := by
  have hloop := SanitizeBatch_loop s sorted out s' h
  constructor
  · intro l hinit hl
    rw [sanitizeLoop_armed (wrap64 (ToMinutes s.timeframe * 60)) s l hinit hl
      sorted none] at hloop
    constructor
    · intro hk
      rw [hk] at hloop
      replace hloop : (some [] : Option (List OHLCVRecord)) = some out := hloop
      simp only [Option.some.injEq] at hloop
      exact hloop.symm
    · intro k ks hk
      rw [hk] at hloop
      replace hloop : (if l.OpenTime < k.OpenTime then
          Option.map (fun g => g ++ k :: ks)
            (gapFill (wrap64 (ToMinutes s.timeframe * 60)) l.Close k.OpenTime
              (l.OpenTime + wrap64 (ToMinutes s.timeframe * 60)))
        else some (k :: ks)) = some out := hloop
      constructor
      · intro hgap
        rw [if_pos hgap] at hloop
        have hdpos : 0 < wrap64 (ToMinutes s.timeframe * 60) := by
          by_contra hc
          push_neg at hc
          rw [gapFill_none_of_nonpos _ _ _ _ hc (by omega)] at hloop
          exact Option.noConfusion hloop
        refine ⟨hdpos, ?_⟩
        rw [gapFill_pos _ _ _ _ hdpos] at hloop
        simp only [Option.map_some', Option.some.injEq] at hloop
        exact hloop.symm
      · intro hgap
        rw [if_neg hgap] at hloop
        simp only [Option.some.injEq] at hloop
        exact hloop.symm
  · intro hcase
    rw [sanitizeLoop_unarmed (wrap64 (ToMinutes s.timeframe * 60)) s sorted
      none [] (Or.inr hcase)] at hloop
    simp only [List.nil_append, Option.some.injEq] at hloop
    exact hloop.symm

end utils

namespace utils

theorem pairwise_le_getLast :
    ∀ (xs : List OHLCVRecord),
      xs.Pairwise (fun a b => a.OpenTime < b.OpenTime) →
      ∀ x ∈ xs, ∀ y, xs.getLast? = some y → x.OpenTime ≤ y.OpenTime := by
  intro xs
  induction xs with
  | nil => intro _ x hx; simp at hx
  | cons x0 rest ih =>
    intro hpw x hx y hy
    obtain ⟨hhead, hrest⟩ := List.pairwise_cons.mp hpw
    cases rest with
    | nil =>
      simp only [List.getLast?_singleton, Option.some.injEq] at hy
      subst hy
      rcases List.mem_cons.mp hx with h1 | h1
      · subst h1
        exact le_refl _
      · simp at h1
    | cons z zs =>
      rw [List.getLast?_cons_cons] at hy
      rcases List.mem_cons.mp hx with h1 | h1
      · subst h1
        have hymem : y ∈ z :: zs := by
          rcases List.mem_getLast?_eq_getLast (x := y) hy with ⟨hh, rfl⟩
          exact List.getLast_mem hh
        exact le_of_lt (hhead y hymem)
      · exact ih hrest x h1 y hy

theorem SanitizeBatch_out_pairwise (s : OHLCVSanitizer)
    (sorted out : List OHLCVRecord) (s' : OHLCVSanitizer)
    (hsorted : sorted.Pairwise (fun a b => a.OpenTime ≤ b.OpenTime))
    (h : SanitizeBatch s sorted = some (out, s')) :
    out.Pairwise (fun a b => a.OpenTime < b.OpenTime) := by
  obtain ⟨harmed, hun⟩ := SanitizeBatch_out_spec s sorted out s' h
  by_cases hinit : s.initialized = true
  · cases hl : s.lastCandle with
    | none =>
      rw [hun (Or.inr hl)]
      exact keptFrom_pairwise s sorted hsorted none
    | some l =>
      obtain ⟨hnil, hcons⟩ := harmed l hinit hl
      cases hk : keptFrom s none sorted with
      | nil =>
        rw [hnil hk]
        exact List.Pairwise.nil
      | cons k ks =>
        obtain ⟨hgapcase, hnogap⟩ := hcons k ks hk
        have hkept : (k :: ks).Pairwise (fun a b => a.OpenTime < b.OpenTime) := by
          rw [← hk]
          exact keptFrom_pairwise s sorted hsorted none
        by_cases hgap : l.OpenTime < k.OpenTime
        · obtain ⟨hd, hout⟩ := hgapcase hgap
          rw [hout]
          refine List.pairwise_append.mpr
            ⟨gapList_pairwise _ _ _ _ hd, hkept, ?_⟩
          intro x hx y hy
          have hxb := gapList_bounds _ _ _ _ hd x hx
          have hyb : k.OpenTime ≤ y.OpenTime := by
            rcases List.mem_cons.mp hy with h1 | h1
            · exact h1 ▸ le_refl _
            · exact le_of_lt ((List.pairwise_cons.mp hkept).1 y h1)
          omega
        · rw [hnogap hgap]
          exact hkept
  · rw [hun (Or.inl (by simpa using hinit))]
    exact keptFrom_pairwise s sorted hsorted none

theorem SanitizeBatch_out_avoid (s : OHLCVSanitizer)
    (sorted out : List OHLCVRecord) (s' : OHLCVSanitizer)
    (f l : OHLCVRecord) (hinit : s.initialized = true)
    (hf : s.firstCandle = some f) (hl : s.lastCandle = some l)
    (h : SanitizeBatch s sorted = some (out, s')) :
    ∀ r ∈ out, r.OpenTime < f.OpenTime ∨ l.OpenTime < r.OpenTime := by
  obtain ⟨harmed, -⟩ := SanitizeBatch_out_spec s sorted out s' h
  obtain ⟨hnil, hcons⟩ := harmed l hinit hl
  cases hk : keptFrom s none sorted with
  | nil =>
    rw [hnil hk]
    intro r hr
    simp at hr
  | cons k ks =>
    obtain ⟨hgapcase, hnogap⟩ := hcons k ks hk
    by_cases hgap : l.OpenTime < k.OpenTime
    · obtain ⟨hd, hout⟩ := hgapcase hgap
      rw [hout]
      intro r hr
      rcases List.mem_append.mp hr with h1 | h1
      · exact Or.inr (gapList_bounds _ _ _ _ hd r h1).1
      · exact keptFrom_avoid s f l hinit hf hl sorted none r (hk ▸ h1)
    · rw [hnogap hgap]
      intro r hr
      exact keptFrom_avoid s f l hinit hf hl sorted none r (hk ▸ hr)

end utils

namespace utils

/-- Well-formedness of the sanitizer state (the invariant of claim C10):
empty states hold no candles; bounded states hold both, in order. -/
def StateWF (s : OHLCVSanitizer) : Prop :=
  (s.initialized = false → s.firstCandle = none ∧ s.lastCandle = none) ∧
  (s.initialized = true → ∃ f l, s.firstCandle = some f ∧
    s.lastCandle = some l ∧ f.OpenTime ≤ l.OpenTime)

theorem SanitizeBatch_step (s : OHLCVSanitizer)
    (sorted out : List OHLCVRecord) (s' : OHLCVSanitizer)
    (hwf : StateWF s)
    (hsorted : sorted.Pairwise (fun a b => a.OpenTime ≤ b.OpenTime))
    (h : SanitizeBatch s sorted = some (out, s')) :
    StateWF s' ∧
    (out = [] → s' = s) ∧
    (∀ f l, s.initialized = true → s.firstCandle = some f →
      s.lastCandle = some l →
      ∀ f' l', s'.firstCandle = some f' → s'.lastCandle = some l' →
        f'.OpenTime ≤ f.OpenTime ∧ l.OpenTime ≤ l'.OpenTime) ∧
    (∀ r ∈ out, ∀ f' l', s'.firstCandle = some f' → s'.lastCandle = some l' →
      f'.OpenTime ≤ r.OpenTime ∧ r.OpenTime ≤ l'.OpenTime) := by
  have hpw := SanitizeBatch_out_pairwise s sorted out s' hsorted h
  rcases SanitizeBatch_state s sorted out s' h with
    ⟨hout0, rfl⟩ | ⟨htf, hinit', r0, rs, houteq, hcase⟩
  · refine ⟨hwf, fun _ => rfl, ?_, ?_⟩
    · intro f l hi hf hl f' l' hf' hl'
      rw [hf] at hf'
      rw [hl] at hl'
      cases hf'
      cases hl'
      exact ⟨le_refl _, le_refl _⟩
    · intro r hr
      rw [hout0] at hr
      simp at hr
  · subst houteq
    have hhead : ∀ r ∈ r0 :: rs, r0.OpenTime ≤ r.OpenTime := by
      intro r hr
      rcases List.mem_cons.mp hr with h1 | h1
      · exact h1 ▸ le_refl _
      · exact le_of_lt ((List.pairwise_cons.mp hpw).1 r h1)
    have hlastb : ∀ r ∈ r0 :: rs, r.OpenTime ≤
        ((r0 :: rs).getLast (List.cons_ne_nil r0 rs)).OpenTime := by
      intro r hr
      exact pairwise_le_getLast _ hpw r hr _
        (List.getLast?_eq_getLast_of_ne_nil _)
    rcases hcase with ⟨hsinit, hfc, hlc⟩ | ⟨hsinit, f, l, hf, hl, hfc, hlc⟩
    · refine ⟨⟨fun hff => absurd hff (by simp [hinit']),
        fun _ => ⟨r0, _, hfc, hlc, hlastb r0 (List.mem_cons_self _ _)⟩⟩,
        ?_, ?_, ?_⟩
      · intro hc
        exact absurd hc (by simp)
      · intro f l hi hf hl f' l' hf' hl'
        rw [hi] at hsinit
        exact Bool.noConfusion hsinit
      · intro r hr f' l' hf' hl'
        rw [hfc] at hf'
        rw [hlc] at hl'
        cases hf'
        cases hl'
        exact ⟨hhead r hr, hlastb r hr⟩
    · have hfl : f.OpenTime ≤ l.OpenTime := by
        obtain ⟨-, hw⟩ := hwf
        obtain ⟨f2, l2, hf2, hl2, hh⟩ := hw hsinit
        rw [hf] at hf2
        rw [hl] at hl2
        cases hf2
        cases hl2
        exact hh
      have hr0L : r0.OpenTime ≤
          ((r0 :: rs).getLast (List.cons_ne_nil r0 rs)).OpenTime :=
        hlastb r0 (List.mem_cons_self _ _)
      refine ⟨⟨fun hff => absurd hff (by simp [hinit']), fun _ => ?_⟩,
        ?_, ?_, ?_⟩
      · refine ⟨_, _, hfc, hlc, ?_⟩
        split_ifs with h1 h2 h3 <;> omega
      · intro hc
        exact absurd hc (by simp)
      · intro f2 l2 hi hf2 hl2 f' l' hf' hl'
        rw [hf] at hf2
        rw [hl] at hl2
        cases hf2
        cases hl2
        rw [hfc] at hf'
        rw [hlc] at hl'
        cases hf'
        cases hl'
        constructor
        · split_ifs with h1 <;> omega
        · split_ifs with h1 <;> omega
      · intro r hr f' l' hf' hl'
        rw [hfc] at hf'
        rw [hlc] at hl'
        cases hf'
        cases hl'
        have h1 := hhead r hr
        have h2 := hlastb r hr
        constructor
        · split_ifs with h3 <;> omega
        · split_ifs with h3 <;> omega

end utils

namespace utils

theorem Reachable_WF : ∀ s, Reachable s → StateWF s := by
  intro s h
  induction h with
  | new tf =>
    exact ⟨fun _ => ⟨rfl, rfl⟩, fun hc => by simp [NewOHLCVSanitizer] at hc⟩
  | sanitize hr hsorted hcall ih =>
    exact (SanitizeBatch_step _ _ _ _ ih hsorted hcall).1
  | reset hr ih =>
    exact ⟨fun _ => ⟨rfl, rfl⟩, fun hc => by simp [Reset] at hc⟩
  | settf tf hr ih =>
    exact ⟨fun _ => ⟨rfl, rfl⟩, fun hc => by simp [SetTimeframe, Reset] at hc⟩

theorem runBatches_sound :
    ∀ (calls : List (List OHLCVRecord)) (s : OHLCVSanitizer),
      (∀ b ∈ calls, b.Pairwise (fun a b => a.OpenTime ≤ b.OpenTime)) →
      StateWF s →
      ∀ outs s', runBatches s calls = some (outs, s') →
        (outs.map (fun r => r.OpenTime)).Nodup ∧ StateWF s' ∧
        (∀ r ∈ outs, s.initialized = true →
          ∀ f l, s.firstCandle = some f → s.lastCandle = some l →
            r.OpenTime < f.OpenTime ∨ l.OpenTime < r.OpenTime) := by
  intro calls
  induction calls with
  | nil =>
    intro s hs hwf outs s' h
    cases h
    exact ⟨List.nodup_nil, hwf, fun r hr => by simp at hr⟩
  | cons b rest ih =>
    intro s hs hwf outs s' h
    unfold runBatches at h
    split at h
    · exact Option.noConfusion h
    · rename_i out1 s1 hcall
      split at h
      · exact Option.noConfusion h
      · rename_i outs2 s2 hrun
        simp only [Option.some.injEq, Prod.mk.injEq] at h
        obtain ⟨houts, hs'⟩ := h
        subst houts
        subst hs'
        have hb := hs b (List.mem_cons_self _ _)
        have hrest : ∀ x ∈ rest, x.Pairwise
            (fun a b => a.OpenTime ≤ b.OpenTime) :=
          fun x hx => hs x (List.mem_cons_of_mem _ hx)
        obtain ⟨hwf1, hempty, hgrow, hinside⟩ :=
          SanitizeBatch_step s b out1 s1 hwf hb hcall
        obtain ⟨hnd2, hwf2, havoid2⟩ := ih s1 hrest hwf1 outs2 s2 hrun
        have hpw1 := SanitizeBatch_out_pairwise s b out1 s1 hb hcall
        have hmap1 : (out1.map (fun r => r.OpenTime)).Pairwise
            (fun a b : Int => a < b) :=
          List.Pairwise.map _ (fun a b hab => hab) hpw1
        have hnd1 : (out1.map (fun r => r.OpenTime)).Nodup :=
          hmap1.imp (fun hab => ne_of_lt hab)
        refine ⟨?_, hwf2, ?_⟩
        · rw [List.map_append]
          refine List.nodup_append.mpr ⟨hnd1, hnd2, ?_⟩
          intro t ht1 ht2
          obtain ⟨x, hx, hxt⟩ := List.mem_map.mp ht1
          obtain ⟨y, hy, hyt⟩ := List.mem_map.mp ht2
          -- out1 nonempty here, so s1 is bounded and x lies inside its range
          cases hout1 : out1 with
          | nil =>
            rw [hout1] at hx
            simp at hx
          | cons o1 os =>
            have hs1init : s1.initialized = true := by
              rcases SanitizeBatch_state s b out1 s1 hcall with
                ⟨he, -⟩ | ⟨-, hinit', -⟩
              · rw [hout1] at he
                exact List.noConfusion he
              · exact hinit'
            obtain ⟨-, hw1⟩ := hwf1
            obtain ⟨f1, l1, hf1, hl1, -⟩ := hw1 hs1init
            have hxin := hinside x hx f1 l1 hf1 hl1
            have hyout := havoid2 y hy hs1init f1 l1 hf1 hl1
            omega
        · intro r hr hinitS f l hf hl
          rcases List.mem_append.mp hr with h1 | h1
          · exact SanitizeBatch_out_avoid s b out1 s1 f l hinitS hf hl
              hcall r h1
          · have hs1init : s1.initialized = true := by
              cases hout1 : out1 with
              | nil =>
                rw [hempty hout1]
                exact hinitS
              | cons o1 os =>
                rcases SanitizeBatch_state s b out1 s1 hcall with
                  ⟨he, -⟩ | ⟨-, hinit', -⟩
                · rw [hout1] at he
                  exact List.noConfusion he
                · exact hinit'
            obtain ⟨-, hw1⟩ := hwf1
            obtain ⟨f1, l1, hf1, hl1, -⟩ := hw1 hs1init
            have hy := havoid2 r h1 hs1init f1 l1 hf1 hl1
            cases hout1 : out1 with
            | nil =>
              have hseq := hempty hout1
              rw [hseq] at hf1 hl1
              rw [hf] at hf1
              rw [hl] at hl1
              cases hf1
              cases hl1
              exact hy
            | cons o1 os =>
              have hgr := hgrow f l hinitS hf hl f1 l1 hf1 hl1
              omega

end utils

namespace utils

theorem sanitizeLoop_total (dur : Int) (s : OHLCVSanitizer) (hd : 0 < dur) :
    ∀ (cs : List OHLCVRecord) (p : Option Int) (acc : List OHLCVRecord),
      (sanitizeLoop dur s cs p acc).isSome = true := by
  intro cs
  induction cs with
  | nil => intro p acc; rfl
  | cons c rest ih =>
    intro p acc
    unfold sanitizeLoop
    by_cases h1 : isInternalDup p c = true
    · rw [if_pos h1]
      exact ih _ _
    · rw [if_neg h1]
      by_cases h2 : isExternalDup s c = true
      · rw [if_pos h2]
        exact ih _ _
      · rw [if_neg h2]
        split
        · split
          · rename_i l heq
            split
            · rw [gapFill_pos _ _ _ _ hd]
              simp only [Option.map_some', Option.some_bind]
              exact ih _ _
            · simp only [Option.some_bind]
              exact ih _ _
          · simp only [Option.some_bind]
            exact ih _ _
        · simp only [Option.some_bind]
          exact ih _ _

theorem SanitizeBatch_total (s : OHLCVSanitizer) (hwf : StateWF s)
    (hd : 0 < wrap64 (ToMinutes s.timeframe * 60))
    (sorted : List OHLCVRecord) :
    (SanitizeBatch s sorted).isSome = true := by
  cases hsb : SanitizeBatch s sorted with
  | some p => rfl
  | none =>
    exfalso
    unfold SanitizeBatch at hsb
    split at hsb
    · exact Option.noConfusion hsb
    · rename_i c0 cs
      dsimp only [] at hsb
      split at hsb
      · rename_i hres
        have htot := sanitizeLoop_total (wrap64 (ToMinutes s.timeframe * 60))
          s hd (c0 :: cs) none []
        rw [hres] at htot
        simp at htot
      · exact Option.noConfusion hsb
      · rename_i r0 rs hres
        split at hsb
        · rename_i hs1
          split at hs1
          · exact Option.noConfusion hs1
          · rename_i hi
            split at hs1
            · rename_i hfeq
              have hi2 : s.initialized = true := by simpa using hi
              obtain ⟨-, hw⟩ := hwf
              obtain ⟨f, l, hf, -, -⟩ := hw hi2
              rw [hf] at hfeq
              exact Option.noConfusion hfeq
            · split at hs1 <;> exact Option.noConfusion hs1
        · rename_i s1 hs1
          split at hsb
          · rename_i hs2
            split at hs2
            · exact Option.noConfusion hs2
            · rename_i hi
              split at hs2
              · rename_i hleq
                have hi2 : s.initialized = true := by simpa using hi
                obtain ⟨-, hw⟩ := hwf
                obtain ⟨f, l, -, hl2, -⟩ := hw hi2
                rw [hl2] at hleq
                exact Option.noConfusion hleq
              · split at hs2 <;> exact Option.noConfusion hs2
          · exact Option.noConfusion hsb

end utils

/-- Claim C1: gap synthesis happens exactly when the sanitizer is bounded
(`initialized`, `lastCandle` present) and the first retained candle of the
call lies strictly after `lastCandle`; the output then begins with one
filler per timestamp `lastCandle.OpenTime + j * period`, `j ≥ 1`, strictly
below the first retained candle's `OpenTime`, in ascending order, each
filler flat at `lastCandle.Close` with volume `"0.00000000"`; in every
other case — empty state, nil `lastCandle`, no retained candle, or a first
retained candle at or before `lastCandle` (backward extension included) —
the output is exactly the retained candles, with no filler. -/
theorem C1_gap_synthesis (s : OHLCVSanitizer)
    (sorted out : List OHLCVRecord) (s' : OHLCVSanitizer)
    (h : SanitizeBatch s sorted = some (out, s')) :
    (∀ l, s.initialized = true → s.lastCandle = some l →
       (keptFrom s none sorted = [] → out = []) ∧
       (∀ k ks, keptFrom s none sorted = k :: ks →
         (l.OpenTime < k.OpenTime →
           ∃ fillers, out = fillers ++ k :: ks ∧
             (∀ r ∈ fillers, r.Open = l.Close ∧ r.High = l.Close ∧
               r.Low = l.Close ∧ r.Close = l.Close ∧
               r.Volume = "0.00000000") ∧
             fillers.Pairwise (fun a b => a.OpenTime < b.OpenTime) ∧
             (∀ ts : Int, (∃ r ∈ fillers, r.OpenTime = ts) ↔
               ∃ j : Int, 1 ≤ j ∧
                 ts = l.OpenTime +
                   j * wrap64 (ToMinutes s.timeframe * 60) ∧
                 ts < k.OpenTime)) ∧
         (¬ l.OpenTime < k.OpenTime → out = k :: ks))) ∧
    ((s.initialized = false ∨ s.lastCandle = none) →
      out = keptFrom s none sorted) := by
  obtain ⟨harmed, hun⟩ := SanitizeBatch_out_spec s sorted out s' h
  refine ⟨?_, hun⟩
  intro l hinit hl
  obtain ⟨hnil, hcons⟩ := harmed l hinit hl
  refine ⟨hnil, ?_⟩
  intro k ks hk
  obtain ⟨hgapcase, hnogap⟩ := hcons k ks hk
  refine ⟨?_, hnogap⟩
  intro hgap
  obtain ⟨hd, hout⟩ := hgapcase hgap
  refine ⟨gapList (wrap64 (ToMinutes s.timeframe * 60)) l.Close k.OpenTime
    (l.OpenTime + wrap64 (ToMinutes s.timeframe * 60)), hout, ?_, ?_, ?_⟩
  · intro r hr
    exact gapList_mem_fields _ _ _ _ r hr
  · exact gapList_pairwise _ _ _ _ hd
  · intro ts
    exact gapList_ts_iff _ _ _ _ hd ts

/-- First candle of the spec's gap scenario: close `"100.5"` at time
1000. -/
def c1prior : OHLCVRecord := ⟨1000, "100.0", "101.0", "99.0", "100.5", "1000"⟩

/-- The candle arriving at time 1900 after the gap. -/
def c1next : OHLCVRecord := ⟨1900, "102.0", "103.0", "101.5", "102.5", "1500"⟩

/-- The bounded sanitizer state after processing `c1prior` at the 5-minute
timeframe. -/
def c1state : OHLCVSanitizer := ⟨tfFiveMin, some c1prior, some c1prior, true⟩

/-- Witness for `C1_gap_synthesis`: the spec's 5-minute scenario; the call
returns fillers at 1300 and 1600 (flat at `"100.5"`, zero volume) before
the real candle at 1900. -/
theorem C1_gap_synthesis_witness :
    SanitizeBatch c1state [c1next] =
      some ([mkGapCandle 1300 "100.5", mkGapCandle 1600 "100.5", c1next],
        ⟨tfFiveMin, some c1next, some c1prior, true⟩) ∧
      ((∀ l, c1state.initialized = true → c1state.lastCandle = some l →
         (keptFrom c1state none [c1next] = [] →
           [mkGapCandle 1300 "100.5", mkGapCandle 1600 "100.5", c1next] = []) ∧
         (∀ k ks, keptFrom c1state none [c1next] = k :: ks →
           (l.OpenTime < k.OpenTime →
             ∃ fillers,
               [mkGapCandle 1300 "100.5", mkGapCandle 1600 "100.5", c1next] =
                 fillers ++ k :: ks ∧
               (∀ r ∈ fillers, r.Open = l.Close ∧ r.High = l.Close ∧
                 r.Low = l.Close ∧ r.Close = l.Close ∧
                 r.Volume = "0.00000000") ∧
               fillers.Pairwise (fun a b => a.OpenTime < b.OpenTime) ∧
               (∀ ts : Int, (∃ r ∈ fillers, r.OpenTime = ts) ↔
                 ∃ j : Int, 1 ≤ j ∧
                   ts = l.OpenTime +
                     j * wrap64 (ToMinutes c1state.timeframe * 60) ∧
                   ts < k.OpenTime)) ∧
           (¬ l.OpenTime < k.OpenTime →
             [mkGapCandle 1300 "100.5", mkGapCandle 1600 "100.5", c1next] =
               k :: ks))) ∧
       ((c1state.initialized = false ∨ c1state.lastCandle = none) →
         [mkGapCandle 1300 "100.5", mkGapCandle 1600 "100.5", c1next] =
           keptFrom c1state none [c1next])) :=
  ⟨by decide,
    C1_gap_synthesis c1state [c1next]
      [mkGapCandle 1300 "100.5", mkGapCandle 1600 "100.5", c1next]
      ⟨tfFiveMin, some c1next, some c1prior, true⟩ (by decide)⟩

/-- A flat record at time 2000. -/
def c2r2000 : OHLCVRecord := ⟨2000, "1", "1", "1", "1", "1"⟩

/-- A flat record at time 1000. -/
def c2r1000 : OHLCVRecord := ⟨1000, "1", "1", "1", "1", "1"⟩

/-- A flat record at time 1300 — inside the covered range `[1000, 2000]`
but never emitted. -/
def c2r1300 : OHLCVRecord := ⟨1300, "1", "1", "1", "1", "1"⟩

/-- Claim C2 (counterexample): at the 5-minute timeframe, submit 2000, then
1000 (backward extension — no gap fill), then 1300 twice in two further
calls. The timestamp 1300 lies inside the covered range `[1000, 2000]`
without ever having been emitted, so both submissions are dropped: an
`OpenTime` submitted in two different calls appears ZERO times — not
exactly once — in the concatenated output. -/
theorem C2_duplicate_counterexample :
    runBatches (NewOHLCVSanitizer tfFiveMin)
        [[c2r2000], [c2r1000], [c2r1300], [c2r1300]] =
      some ([c2r2000, c2r1000],
        ⟨tfFiveMin, some c2r2000, some c2r1000, true⟩) ∧
      (List.filter (fun r => r.OpenTime == 1300)
        [c2r2000, c2r1000]).length = 0 :=
  ⟨by decide, by decide⟩

/-- Claim C2 (amended): over any sequence of `SanitizeBatch` calls on one
sanitizer, every `OpenTime` appears in the concatenation of the returned
outputs at most once — in particular a timestamp submitted in two
different calls is emitted at most once (possibly zero times, as the
counterexample shows). -/
theorem C2_duplicate_at_most_once (tf : Timeframe)
    (calls : List (List OHLCVRecord))
    (hsorted : ∀ b ∈ calls, b.Pairwise (fun a b => a.OpenTime ≤ b.OpenTime))
    (outs : List OHLCVRecord) (s' : OHLCVSanitizer)
    (h : runBatches (NewOHLCVSanitizer tf) calls = some (outs, s')) :
    (outs.map (fun r => r.OpenTime)).Nodup :=
  (runBatches_sound calls (NewOHLCVSanitizer tf) hsorted
    ⟨fun _ => ⟨rfl, rfl⟩, fun hc => by simp [NewOHLCVSanitizer] at hc⟩
    outs s' h).1

/-- Witness for `C2_duplicate_at_most_once`: the four-call scenario of the
counterexample; the cumulative output timestamps `[2000, 1000]` hold no
duplicate. -/
theorem C2_duplicate_at_most_once_witness :
    (([c2r2000, c2r1000] : List OHLCVRecord).map
      (fun r => r.OpenTime)).Nodup :=
  C2_duplicate_at_most_once tfFiveMin
    [[c2r2000], [c2r1000], [c2r1300], [c2r1300]] (by decide)
    [c2r2000, c2r1000] ⟨tfFiveMin, some c2r2000, some c2r1000, true⟩
    (by decide)

open gotime in
/-- The zero-value minute timeframe, exactly as `TimeframeFromString`
accepts `"0m"`. -/
def tfZeroMin : Timeframe := ⟨0, 0, 0, "m", some UTC⟩

/-- A flat record at time 1000 for the totality counterexample. -/
def c8r1000 : OHLCVRecord := ⟨1000, "1", "1", "1", "1", "1"⟩

/-- A flat record at time 2000 for the totality counterexample. -/
def c8r2000 : OHLCVRecord := ⟨2000, "1", "1", "1", "1", "1"⟩

/-- Claim C8 (counterexample): with the parser-accepted `"0m"` timeframe
(period 0), the first call succeeds, after which a batch strictly ahead of
`lastCandle` drives the gap loop `for nextTs < candle.OpenTime
{ nextTs += 0 }` forever — `SanitizeBatch` never returns (`none` in the
model), so it is not total for every Timeframe the sanitizer can hold. -/
theorem C8_totality_counterexample :
    TimeframeFromString (fun _ => none) "0m" = Except.ok tfZeroMin ∧
      SanitizeBatch (NewOHLCVSanitizer tfZeroMin) [c8r1000] =
        some ([c8r1000], ⟨tfZeroMin, some c8r1000, some c8r1000, true⟩) ∧
      SanitizeBatch
        (⟨tfZeroMin, some c8r1000, some c8r1000, true⟩ : OHLCVSanitizer)
        [c8r2000] = none :=
  ⟨rfl, by decide, by decide⟩

/-- Claim C8 (amended): for every reachable sanitizer whose period
`ToMinutes() * 60` is positive, `SanitizeBatch` returns (with nil error)
on every batch under every admissible `sort.Slice` outcome, and the empty
batch always returns the empty output with the state unchanged. For a
non-positive period — e.g. the parser-accepted zero-value timeframe — a
batch strictly ahead of `lastCandle` makes the gap loop run forever. -/
theorem C8_totality_amended (s : OHLCVSanitizer) (hreach : Reachable s)
    (hdur : 0 < wrap64 (ToMinutes s.timeframe * 60)) :
    (∀ batch sorted, sortSliceAdmissible batch sorted →
      (SanitizeBatch s sorted).isSome = true) ∧
      SanitizeBatch s [] = some ([], s) :=
  ⟨fun _ sorted _ =>
    SanitizeBatch_total s (Reachable_WF s hreach) hdur sorted, rfl⟩

/-- Witness for `C8_totality_amended`: a fresh 5-minute sanitizer (period
300 s). -/
theorem C8_totality_amended_witness :
    (∀ batch sorted, sortSliceAdmissible batch sorted →
      (SanitizeBatch (NewOHLCVSanitizer tfFiveMin) sorted).isSome = true) ∧
      SanitizeBatch (NewOHLCVSanitizer tfFiveMin) [] =
        some ([], NewOHLCVSanitizer tfFiveMin) :=
  C8_totality_amended (NewOHLCVSanitizer tfFiveMin)
    (Reachable.new tfFiveMin) (by decide)

/-- Claim C10: every sanitizer state reachable through
`NewOHLCVSanitizer`, successful `SanitizeBatch` calls, `Reset` and
`SetTimeframe` satisfies the state invariant: not initialized means both
boundary candles are absent; initialized means both are present with
`firstCandle.OpenTime ≤ lastCandle.OpenTime`. -/
theorem C10_state_invariant (s : OHLCVSanitizer) (h : Reachable s) :
    (s.initialized = false → s.firstCandle = none ∧ s.lastCandle = none) ∧
      (s.initialized = true → ∃ f l, s.firstCandle = some f ∧
        s.lastCandle = some l ∧ f.OpenTime ≤ l.OpenTime) :=
  Reachable_WF s h

/-- Witness for `C10_state_invariant`: a freshly created sanitizer. -/
theorem C10_state_invariant_witness :
    ((NewOHLCVSanitizer tfFiveMin).initialized = false →
      (NewOHLCVSanitizer tfFiveMin).firstCandle = none ∧
        (NewOHLCVSanitizer tfFiveMin).lastCandle = none) ∧
      ((NewOHLCVSanitizer tfFiveMin).initialized = true →
        ∃ f l, (NewOHLCVSanitizer tfFiveMin).firstCandle = some f ∧
          (NewOHLCVSanitizer tfFiveMin).lastCandle = some l ∧
          f.OpenTime ≤ l.OpenTime) :=
  C10_state_invariant (NewOHLCVSanitizer tfFiveMin)
    (Reachable.new tfFiveMin)

namespace utils

theorem validateRecord_none_iff {F : Type} [LinearOrder F]
    (pf : String → Option F) (r : OHLCVRecord) :
    validateRecord pf r = none ↔ recordViolation pf r = false := by
  unfold validateRecord recordViolation
  by_cases h0 : r.OpenTime ≤ 0
  · simp [if_pos h0, h0]
  · rw [if_neg h0]
    cases hOp : pf r.Open with
    | none => simp [hOp, h0]
    | some o =>
      cases hHi : pf r.High with
      | none => simp [hOp, hHi, h0]
      | some hi =>
        cases hLo : pf r.Low with
        | none => simp [hOp, hHi, hLo, h0]
        | some lo =>
          cases hCl : pf r.Close with
          | none => simp [hOp, hHi, hLo, hCl, h0]
          | some cl =>
            by_cases h1 : hi < lo
            · simp [hOp, hHi, hLo, hCl, h0, h1]
            · by_cases h2 : hi < o ∨ hi < cl
              · simp [hOp, hHi, hLo, hCl, h0, h1, h2, lt_max_iff]
              · by_cases h3 : lo > o ∨ lo > cl
                · simp [hOp, hHi, hLo, hCl, h0, h1, h2, h3, lt_max_iff,
                    min_lt_iff]
                · cases hV : pf r.Volume with
                  | none =>
                    simp [hOp, hHi, hLo, hCl, hV, h0, h1, h2, h3,
                      lt_max_iff, min_lt_iff]
                  | some v =>
                    simp [hOp, hHi, hLo, hCl, hV, h0, h1, h2, h3,
                      lt_max_iff, min_lt_iff]

theorem validateFrom_none_iff {F : Type} [LinearOrder F]
    (pf : String → Option F) :
    ∀ (batch : List OHLCVRecord) (i : Nat),
      validateFrom pf i batch = none ↔
        ∀ r ∈ batch, recordViolation pf r = false := by
  intro batch
  induction batch with
  | nil => intro i; simp [validateFrom]
  | cons r rest ih =>
    intro i
    unfold validateFrom
    cases hv : validateRecord pf r with
    | some e =>
      refine ⟨fun hc => Option.noConfusion hc, fun hall => ?_⟩
      have hnone := (validateRecord_none_iff pf r).mpr
        (hall r (List.mem_cons_self _ _))
      rw [hv] at hnone
      exact Option.noConfusion hnone
    | none =>
      rw [ih (i + 1)]
      constructor
      · intro hall r' hr'
        rcases List.mem_cons.mp hr' with h1 | h1
        · rw [h1]
          exact (validateRecord_none_iff pf r).mp hv
        · exact hall r' h1
      · intro hall r' hr'
        exact hall r' (List.mem_cons_of_mem _ hr')

theorem validateFrom_some {F : Type} [LinearOrder F]
    (pf : String → Option F) :
    ∀ (batch : List OHLCVRecord) (i j : Nat) (e : RecordError),
      validateFrom pf i batch = some (j, e) →
      i ≤ j ∧
        (∃ r, batch.get? (j - i) = some r ∧
          recordViolation pf r = true) ∧
        ∀ m, m < j - i → ∀ r', batch.get? m = some r' →
          recordViolation pf r' = false := by
  intro batch
  induction batch with
  | nil => intro i j e h; simp [validateFrom] at h
  | cons r rest ih =>
    intro i j e h
    unfold validateFrom at h
    cases hv : validateRecord pf r with
    | some e0 =>
      rw [hv] at h
      simp only [Option.some.injEq, Prod.mk.injEq] at h
      obtain ⟨hij, -⟩ := h
      subst hij
      refine ⟨le_refl _, ⟨r, by simp, ?_⟩, ?_⟩
      · by_contra hc
        have hb : recordViolation pf r = false := by
          cases hrv : recordViolation pf r with
          | false => rfl
          | true => exact absurd hrv hc
        have := (validateRecord_none_iff pf r).mpr hb
        rw [hv] at this
        exact Option.noConfusion this
      · intro m hm
        omega
    | none =>
      rw [hv] at h
      obtain ⟨hij, ⟨r2, hr2, hviol⟩, hmin⟩ := ih (i + 1) j e h
      refine ⟨by omega, ⟨r2, ?_, hviol⟩, ?_⟩
      · have hsub : j - i = (j - (i + 1)) + 1 := by omega
        rw [hsub]
        simpa using hr2
      · intro m hm r' hr'
        cases m with
        | zero =>
          have hr0 : r = r' := by simpa using hr'
          rw [← hr0]
          exact (validateRecord_none_iff pf r).mp hv
        | succ m2 =>
          have hm2 : m2 < j - (i + 1) := by omega
          exact hmin m2 hm2 r' (by simpa using hr')

end utils

/-- Claim C7: `ValidateBatch` (for an arbitrary float parser, standing for
the `fmt.Sscanf`-based `parseFloat`) returns an error iff some record
violates the single-record invariant — `openTime ≤ 0`, an unparseable
field, `high < low`, `high < max(open, close)`, or `low > min(open,
close)` — the returned index is the lowest violating index, an all-valid
batch yields no error, and the sanitizer state is never consulted (the
result is the same for every receiver state; the method writes nothing). -/
theorem C7_validateBatch_iff {F : Type} [LinearOrder F]
    (pf : String → Option F) (s : OHLCVSanitizer)
    (batch : List OHLCVRecord) :
    (ValidateBatch pf s batch = none ↔
      ∀ r ∈ batch, recordViolation pf r = false) ∧
    (∀ i e, ValidateBatch pf s batch = some (i, e) →
      (∃ r, batch.get? i = some r ∧ recordViolation pf r = true) ∧
        ∀ m, m < i → ∀ r2, batch.get? m = some r2 →
          recordViolation pf r2 = false) ∧
    (∀ s2, ValidateBatch pf s batch = ValidateBatch pf s2 batch) := by
  refine ⟨?_, ?_, fun s2 => rfl⟩
  · exact validateFrom_none_iff pf batch 0
  · intro i e h
    obtain ⟨-, hex, hmin⟩ := validateFrom_some pf batch 0 i e h
    exact ⟨by simpa using hex, by simpa using hmin⟩

/-- A record satisfying the single-record invariant. -/
def c7good : OHLCVRecord := ⟨1000, "100", "101", "99", "100", "50"⟩

/-- A record with `high < low` (99 < 101). -/
def c7bad : OHLCVRecord := ⟨1100, "100", "99", "101", "100", "50"⟩

/-- Witness for `C7_validateBatch_iff`: the integer sample parser on a
batch holding one valid and one `high < low` record. -/
theorem C7_validateBatch_iff_witness :
    (ValidateBatch sampleParser (NewOHLCVSanitizer tfFiveMin)
        [c7good, c7bad] = none ↔
      ∀ r ∈ [c7good, c7bad], recordViolation sampleParser r = false) ∧
    (∀ i e, ValidateBatch sampleParser (NewOHLCVSanitizer tfFiveMin)
        [c7good, c7bad] = some (i, e) →
      (∃ r, [c7good, c7bad].get? i = some r ∧
        recordViolation sampleParser r = true) ∧
        ∀ m, m < i → ∀ r2, [c7good, c7bad].get? m = some r2 →
          recordViolation sampleParser r2 = false) ∧
    (∀ s2, ValidateBatch sampleParser (NewOHLCVSanitizer tfFiveMin)
        [c7good, c7bad] =
      ValidateBatch sampleParser s2 [c7good, c7bad]) :=
  C7_validateBatch_iff sampleParser (NewOHLCVSanitizer tfFiveMin)
    [c7good, c7bad]
